import Mathlib

/-!
Verification development for the statistical data-transform module
(src/utils/dataTransforms.ts) of the slice charting library.

Modelling conventions (shallow embedding of the TypeScript/JavaScript code):

+ A record is an association list from field names (String) to optional
  scalar values.  A stored value of `none` models a property whose value is
  the JavaScript undefined; an absent key also reads as undefined, matching
  JavaScript member access.  Scalar values are the JSON scalars: rational
  number, string, boolean, null.
+ JavaScript IEEE-754 doubles are idealized as exact rationals extended with
  NaN and signed-infinity markers (JsNum).  Arithmetic is exact: rounding,
  overflow and negative zero are not modelled.  The square root is exact on
  perfect squares of rationals and a floor-style approximation elsewhere;
  the theorems below depend on the square root only at 0 and on NaN inputs.
+ String-to-number coercion models the decimal part of the JavaScript
  ToNumber grammar (optional sign, digits, optional fraction and exponent,
  empty or blank string is 0).  Hexadecimal, octal, binary and Infinity
  literals are treated as non-numeric, a documented idealization.
+ d3 helpers (d3.mean, d3.median, d3.deviation, d3.rollup, d3.extent,
  d3.bin, d3.ticks) are modelled from the d3-array version 3 sources.
  Array.prototype.sort is modelled as a stable sort, as the ECMAScript
  specification requires.
-/

namespace Slice

/-- Scalar values that can occur in a record: the JSON scalars. -/
inductive Value where
  | num (q : ℚ)
  | str (s : String)
  | bool (b : Bool)
  | null
deriving DecidableEq

/-- A record: association list from field name to optional scalar.
A stored none is an explicitly-undefined property; a missing key also
reads as undefined. -/
abbrev Record := List (String × Option Value)

/-- Member access row[field]: the first binding of the key, collapsing an
explicitly-undefined property and an absent key to none (undefined). -/
def lookupR : Record → String → Option Value
  | [], _ => none
  | (k', v) :: rest, k => if k = k' then v else lookupR rest k

/-- Property assignment row[field] = v: overwrite the first binding in
place (JavaScript keeps the key position), or append a new binding. -/
def setField : Record → String → Option Value → Record
  | [], k, v => [(k, v)]
  | (k', v') :: rest, k, v =>
    if k = k' then (k, v) :: rest else (k', v') :: setField rest k v

/-- The missing-value predicate of dataTransforms: value === null,
=== undefined, or === the empty string. -/
def isMissingV : Option Value → Bool
  | none => true
  | some .null => true
  | some (.str s) => s = ""
  | _ => false

/-! JavaScript numbers, idealized: exact rationals plus NaN and infinities. -/

/-- An idealized JavaScript number. -/
inductive JsNum where
  | nan
  | inf
  | negInf
  | fin (q : ℚ)
deriving DecidableEq

/-- JavaScript unary minus. -/
def jsNeg : JsNum → JsNum
  | .nan => .nan
  | .inf => .negInf
  | .negInf => .inf
  | .fin q => .fin (-q)

/-- JavaScript addition (exact, with NaN and infinity propagation). -/
def jsAdd : JsNum → JsNum → JsNum
  | .nan, _ => .nan
  | _, .nan => .nan
  | .inf, .negInf => .nan
  | .negInf, .inf => .nan
  | .inf, _ => .inf
  | _, .inf => .inf
  | .negInf, _ => .negInf
  | _, .negInf => .negInf
  | .fin a, .fin b => .fin (a + b)

/-- JavaScript subtraction: x - y is x + (-y) in IEEE arithmetic. -/
def jsSub (a b : JsNum) : JsNum := jsAdd a (jsNeg b)

/-- JavaScript multiplication; infinity times zero is NaN. -/
def jsMul : JsNum → JsNum → JsNum
  | .nan, _ => .nan
  | _, .nan => .nan
  | .fin a, .fin b => .fin (a * b)
  | .inf, .inf => .inf
  | .inf, .negInf => .negInf
  | .negInf, .inf => .negInf
  | .negInf, .negInf => .inf
  | .inf, .fin b => if 0 < b then .inf else if b < 0 then .negInf else .nan
  | .fin a, .inf => if 0 < a then .inf else if a < 0 then .negInf else .nan
  | .negInf, .fin b => if 0 < b then .negInf else if b < 0 then .inf else .nan
  | .fin a, .negInf => if 0 < a then .negInf else if a < 0 then .inf else .nan

/-- JavaScript division; 0/0 and infinity/infinity are NaN, a nonzero
finite numerator over zero is a signed infinity (negative zero is not
modelled). -/
def jsDiv : JsNum → JsNum → JsNum
  | .nan, _ => .nan
  | _, .nan => .nan
  | .inf, .inf => .nan
  | .inf, .negInf => .nan
  | .negInf, .inf => .nan
  | .negInf, .negInf => .nan
  | .fin _, .inf => .fin 0
  | .fin _, .negInf => .fin 0
  | .inf, .fin b => if 0 ≤ b then .inf else .negInf
  | .negInf, .fin b => if 0 ≤ b then .negInf else .inf
  | .fin a, .fin b =>
    if b = 0 then (if a = 0 then .nan else if 0 < a then .inf else .negInf)
    else .fin (a / b)

/-- Floor square root of a natural number by downward search (structural
recursion so that the kernel can evaluate it on small literals). -/
def natSqrtDown (n : ℕ) : ℕ → ℕ
  | 0 => 0
  | k + 1 => if (k + 1) * (k + 1) ≤ n then k + 1 else natSqrtDown n k

/-- Idealized square root on nonnegative rationals: exact on perfect
squares (numerator and denominator both squares), an approximation
elsewhere.  The theorems in this file use it only at 0 and through NaN. -/
def qSqrt (q : ℚ) : ℚ :=
  ((natSqrtDown q.num.toNat q.num.toNat : ℕ) : ℚ) / ((natSqrtDown q.den q.den : ℕ) : ℚ)

/-- JavaScript Math.sqrt: NaN on NaN and on negative input. -/
def jsSqrt : JsNum → JsNum
  | .nan => .nan
  | .inf => .inf
  | .negInf => .nan
  | .fin q => if q < 0 then .nan else .fin (qSqrt q)

/-! String-to-number coercion (decimal subset of the ToNumber grammar). -/

/-- JavaScript whitespace accepted around a numeric string. -/
def isJsSpace (c : Char) : Bool :=
  c = ' ' ∨ c = '\t' ∨ c = '\n' ∨ c = '\r' ∨ c = '\x0b' ∨ c = '\x0c'

/-- Value of a digit character. -/
def digitVal (c : Char) : ℕ := c.toNat - '0'.toNat

/-- Numeric value of a digit list, most significant first. -/
def digitsToNat (cs : List Char) : ℕ :=
  cs.foldl (fun a c => a * 10 + digitVal c) 0

/-- Ten to an integer power, as an exact rational. -/
def pow10 (z : ℤ) : ℚ :=
  if 0 ≤ z then ((10 ^ z.toNat : ℕ) : ℚ) else (1 : ℚ) / ((10 ^ (-z).toNat : ℕ) : ℚ)

/-- Exponent part of a decimal literal: optional sign then digits. -/
def parseExpDigits : List Char → Option ℤ
  | [] => none
  | cs => if cs.all Char.isDigit then some (digitsToNat cs : ℤ) else none

/-- Signed exponent of a decimal literal. -/
def parseExp : List Char → Option ℤ
  | '+' :: t => parseExpDigits t
  | '-' :: t => (parseExpDigits t).map Neg.neg
  | t => parseExpDigits t

/-- Unsigned decimal literal: digits, digits.digits, digits., .digits,
each with an optional exponent part. -/
def parseDec (cs : List Char) : Option ℚ :=
  let ip := cs.takeWhile Char.isDigit
  let r1 := cs.dropWhile Char.isDigit
  let fp : Option (List Char) :=
    match r1 with
    | '.' :: t => some (t.takeWhile Char.isDigit)
    | _ => none
  let r2 : List Char :=
    match r1 with
    | '.' :: t => t.dropWhile Char.isDigit
    | _ => r1
  if ip = [] ∧ (fp = none ∨ fp = some []) then none
  else
    let frac : List Char := fp.getD []
    let mantissa : ℚ :=
      (digitsToNat ip : ℚ) + (digitsToNat frac : ℚ) / pow10 (frac.length : ℤ)
    match r2 with
    | [] => some mantissa
    | e :: t =>
      if e = 'e' ∨ e = 'E' then (parseExp t).map (fun z => mantissa * pow10 z)
      else none

/-- Signed decimal literal. -/
def parseSigned : List Char → Option ℚ
  | '+' :: rest => parseDec rest
  | '-' :: rest => (parseDec rest).map Neg.neg
  | cs => parseDec cs

/-- JavaScript ToNumber on a string (decimal subset): trim whitespace,
empty is 0, otherwise a signed decimal literal; anything else is NaN
(returned as none). -/
def strToNumQ (s : String) : Option ℚ :=
  let cs := ((s.data.dropWhile isJsSpace).reverse.dropWhile isJsSpace).reverse
  match cs with
  | [] => some 0
  | _ => parseSigned cs

/-- JavaScript ToNumber on a record value: undefined is NaN, null is 0,
booleans are 0 and 1, strings go through the decimal grammar. -/
def toNumber : Option Value → JsNum
  | none => .nan
  | some .null => .fin 0
  | some (.bool true) => .fin 1
  | some (.bool false) => .fin 0
  | some (.num q) => .fin q
  | some (.str s) =>
    match strToNumQ s with
    | some q => .fin q
    | none => .nan

/-! d3-array numeric helpers. -/

/-- The filter d3.mean, d3.median and d3.deviation share: keep a value
when it is neither null nor undefined and coerces to a non-NaN number,
yielding the coerced number. -/
def d3Valid : Option Value → Option ℚ
  | none => none
  | some .null => none
  | some w =>
    match toNumber (some w) with
    | .fin q => some q
    | _ => none

/-- The coerced numbers the d3 aggregation helpers actually average. -/
def validNums (l : List (Option Value)) : List ℚ :=
  l.filterMap d3Valid

/-- d3.mean: the mean of the valid values, undefined when there are none. -/
def jsMean (l : List (Option Value)) : Option ℚ :=
  let vs := validNums l
  if vs.length = 0 then none else some (vs.sum / (vs.length : ℚ))

/-- Insert into an ascending sorted list of rationals. -/
def insertAscQ (x : ℚ) : List ℚ → List ℚ
  | [] => [x]
  | y :: ys => if x < y then x :: y :: ys else y :: insertAscQ x ys

/-- Ascending sort of rationals (insertion sort). -/
def sortQ (l : List ℚ) : List ℚ := l.foldl (fun acc x => insertAscQ x acc) []

/-- d3.median, modelled from d3.quantile at p = 0.5: undefined with no
valid values, the single value with one, otherwise linear interpolation
between the two order statistics around position (n-1)/2. -/
def jsMedian (l : List (Option Value)) : Option ℚ :=
  let vs := sortQ (validNums l)
  match vs with
  | [] => none
  | [x] => some x
  | _ =>
    let n := vs.length
    let i : ℚ := ((n - 1 : ℕ) : ℚ) / 2
    let i0 : ℕ := (⌊i⌋).toNat
    let v0 := vs.getD i0 0
    let v1 := vs.getD (i0 + 1) 0
    some (v0 + (v1 - v0) * (i - (i0 : ℚ)))

/-- One step of the Welford recurrence used by d3.variance. -/
def welfordStep (acc : ℕ × ℚ × ℚ) (v : ℚ) : ℕ × ℚ × ℚ :=
  let c := acc.1 + 1
  let delta := v - acc.2.1
  let m := acc.2.1 + delta / (c : ℚ)
  (c, m, acc.2.2 + delta * (v - m))

/-- d3.variance: Welford accumulation over the valid values, undefined
with fewer than two of them. -/
def jsVariance (l : List (Option Value)) : Option ℚ :=
  let acc := (validNums l).foldl welfordStep (0, 0, 0)
  if 1 < acc.1 then some (acc.2.2 / ((acc.1 - 1 : ℕ) : ℚ)) else none

/-- d3.deviation: square root of the variance, with the source returning
a falsy variance (undefined or 0) unchanged. -/
def jsDeviation (l : List (Option Value)) : Option ℚ :=
  match jsVariance l with
  | none => none
  | some v => if v = 0 then some 0 else some (qSqrt v)

/-! The aggregation functions of dataTransforms. -/

/-- calculateMean: d3.mean over the field, with a || 0 fallback. -/
def calculateMean (data : List Record) (field : String) : ℚ :=
  (jsMean (data.map (fun d => lookupR d field))).getD 0

/-- calculateMedian: d3.median over the field, with a || 0 fallback. -/
def calculateMedian (data : List Record) (field : String) : ℚ :=
  (jsMedian (data.map (fun d => lookupR d field))).getD 0

/-- calculateStandardDeviation: d3.deviation over the field, with a || 0
fallback. -/
def calculateStandardDeviation (data : List Record) (field : String) : ℚ :=
  (jsDeviation (data.map (fun d => lookupR d field))).getD 0

/-! Frequencies (d3.rollup plus a stable sort by descending count). -/

/-- One entry of the frequency table of calculateFrequencies. -/
structure FrequencyEntry where
  value : Option Value
  count : ℕ
  percentage : ℚ
deriving DecidableEq

/-- Increment the count of a key in an association list, appending a new
key at the end: the InternMap insertion behaviour behind d3.rollup. -/
def bumpCount {α : Type} [DecidableEq α] : List (α × ℕ) → α → List (α × ℕ)
  | [], k => [(k, 1)]
  | (k', c) :: t, k =>
    if k = k' then (k', c + 1) :: t else (k', c) :: bumpCount t k

/-- d3.rollup with v.length as the reducer: counts per distinct key, keys
in first-encounter order. -/
def rollupCounts {α : Type} [DecidableEq α] (l : List α) : List (α × ℕ) :=
  l.foldl bumpCount []

/-- Insert into a list sorted by descending key, after any element with an
equal key: one step of a stable descending sort. -/
def insertByKeyDesc {α : Type} (key : α → ℕ) (x : α) : List α → List α
  | [] => [x]
  | y :: ys => if key y < key x then x :: y :: ys else y :: insertByKeyDesc key x ys

/-- Stable sort by descending key, modelling Array.prototype.sort with the
comparator (a, b) => b.count - a.count (the ECMAScript sort is stable). -/
def stableSortDescBy {α : Type} (key : α → ℕ) (l : List α) : List α :=
  l.foldl (fun acc x => insertByKeyDesc key x acc) []

/-- calculateFrequencies: count occurrences of each distinct value of the
field, with percentage of the total, sorted by descending count. -/
def calculateFrequencies (data : List Record) (field : String) : List FrequencyEntry :=
  let counts := rollupCounts (data.map (fun d => lookupR d field))
  let total := data.length
  stableSortDescBy (fun e => e.count)
    (counts.map (fun p => ⟨p.1, p.2, ((p.2 : ℚ) / (total : ℚ)) * 100⟩))

/-! JavaScript own-property key order, needed by Object.keys and
Object.values: canonical array-index keys first in ascending numeric
order, then the remaining string keys in insertion order. -/

/-- Is the string a canonical array-index property key: the canonical
decimal form of an integer below 2^32 - 1. -/
def isArrayIndexKey (s : String) : Bool :=
  match s.data with
  | [] => false
  | ['0'] => true
  | c :: cs =>
    c.isDigit && decide (c ≠ '0') && cs.all Char.isDigit &&
      decide (digitsToNat (c :: cs) < 4294967295)

/-- Numeric value of an array-index key, used only to order such keys. -/
def keyNatVal (s : String) : ℕ := digitsToNat s.data

/-- Insert into a list sorted by ascending key, after equal keys. -/
def insertByKeyAsc {α : Type} (key : α → ℕ) (x : α) : List α → List α
  | [] => [x]
  | y :: ys => if key x < key y then x :: y :: ys else y :: insertByKeyAsc key x ys

/-- Stable sort by ascending key. -/
def stableSortAscBy {α : Type} (key : α → ℕ) (l : List α) : List α :=
  l.foldl (fun acc x => insertByKeyAsc key x acc) []

/-- First-encounter deduplication, preserving order of first occurrence. -/
def firstSeen {α : Type} [DecidableEq α] (l : List α) : List α :=
  l.foldl (fun acc x => if x ∈ acc then acc else acc ++ [x]) []

/-- JavaScript own-key enumeration order over a list of keys. -/
def jsOrderKeys (ks : List String) : List String :=
  stableSortAscBy keyNatVal (ks.filter (fun s => isArrayIndexKey s)) ++
    ks.filter (fun s => ¬ isArrayIndexKey s)

/-- Object.keys of a record. -/
def jsKeys (r : Record) : List String :=
  jsOrderKeys (firstSeen (r.map Prod.fst))

/-! Missing-data handling. -/

/-- One entry of the countMissingValues report.  The source field name is
variable, a reserved word in Lean, rendered here as varName. -/
structure MissingReport where
  varName : String
  count : ℕ
  percentage : ℚ
deriving DecidableEq

/-- countMissingValues: for every field of the first record, the number
and percentage of records whose value at that field is missing, sorted by
descending count (stable). -/
def countMissingValues (data : List Record) : List MissingReport :=
  match data with
  | [] => []
  | first :: _ =>
    stableSortDescBy (fun e => e.count)
      ((jsKeys first).map (fun v =>
        let missingCount := (data.filter (fun d => isMissingV (lookupR d v))).length
        ⟨v, missingCount, ((missingCount : ℕ) : ℚ) / ((data.length : ℕ) : ℚ) * 100⟩))

/-- JavaScript truthiness test on a record value, for the || 0 fallback
in the mode branch of imputeMissingValues. -/
def jsFalsy : Option Value → Bool
  | none => true
  | some .null => true
  | some (.num q) => q = 0
  | some (.str s) => s = ""
  | some (.bool b) => !b

/-- JSON.parse of JSON.stringify of a record, for JSON-scalar values:
properties whose value is undefined are dropped, everything else is
copied unchanged (numbers are exact in this idealization). -/
def cloneRecord (r : Record) : Record :=
  r.filter (fun p => p.2.isSome)

/-- The single fill value imputeMissingValues computes for a method, as a
record value: a number for mean and median, the top frequency entry with
a || 0 fallback for mode, and undefined for any other method string. -/
def imputeFill (data : List Record) (field : String) (method : String) : Option Value :=
  let nonMissing := data.filter (fun d => !(isMissingV (lookupR d field)))
  if method = "mean" then some (.num (calculateMean nonMissing field))
  else if method = "median" then some (.num (calculateMedian nonMissing field))
  else if method = "mode" then
    match (calculateFrequencies nonMissing field).head? with
    | none => some (.num 0)
    | some e => if jsFalsy e.value then some (.num 0) else e.value
  else none

/-- imputeMissingValues: clone the dataset through JSON, compute one fill
value from the non-missing records, and overwrite every missing value of
the field with it.  The method parameter is kept as a runtime string, as
a JavaScript caller can pass any value despite the TypeScript union type;
no branch rejects an unrecognized method. -/
def imputeMissingValues (data : List Record) (field : String) (method : String) : List Record :=
  let newData := data.map cloneRecord
  let valueToImpute := imputeFill data field method
  newData.map (fun d =>
    if isMissingV (lookupR d field) then setField d field valueToImpute else d)

/-! Correlation matrix. -/

/-- The result shape of calculateCorrelationMatrix.  The source field
name variables is a reserved word in Lean, rendered here as varNames. -/
structure CorrelationMatrix where
  varNames : List String
  matrix : List (List JsNum)

/-- One iteration of the correlation loop: add this row's contribution to
the numerator and the two squared-deviation denominators, in JavaScript
number arithmetic. -/
def corrStep (xf yf : String) (xMean yMean : ℚ) (acc : JsNum × JsNum × JsNum)
    (row : Record) : JsNum × JsNum × JsNum :=
  let xDiff := jsSub (toNumber (lookupR row xf)) (.fin xMean)
  let yDiff := jsSub (toNumber (lookupR row yf)) (.fin yMean)
  (jsAdd acc.1 (jsMul xDiff yDiff),
   jsAdd acc.2.1 (jsMul xDiff xDiff),
   jsAdd acc.2.2 (jsMul yDiff yDiff))

/-- The loop of calculateCorrelationMatrix over all records. -/
def corrAccum (data : List Record) (xf yf : String) (xMean yMean : ℚ) :
    JsNum × JsNum × JsNum :=
  data.foldl (corrStep xf yf xMean yMean) (.fin 0, .fin 0, .fin 0)

/-- One off-diagonal cell: numerator over the square root of the product
of the denominators, with no special case guarding the division. -/
def corrCell (data : List Record) (xf yf : String) : JsNum :=
  let xMean := (jsMean (data.map (fun d => lookupR d xf))).getD 0
  let yMean := (jsMean (data.map (fun d => lookupR d yf))).getD 0
  let acc := corrAccum data xf yf xMean yMean
  jsDiv acc.1 (jsSqrt (jsMul acc.2.1 acc.2.2))

/-- calculateCorrelationMatrix: n by n matrix with the diagonal set to 1
without computing it, and every off-diagonal pair computed independently. -/
def calculateCorrelationMatrix (data : List Record) (vars : List String) :
    CorrelationMatrix :=
  ⟨vars,
    (List.range vars.length).map (fun i =>
      (List.range vars.length).map (fun j =>
        if i = j then .fin 1 else corrCell data (vars.getD i "") (vars.getD j "")))⟩

/-- The matrix entry at row i, column j. -/
def entryAt (M : CorrelationMatrix) (i j : ℕ) : JsNum :=
  (M.matrix.getD i []).getD j .nan

/-! Reshape functions.  Objects are modelled as association lists together
with the JavaScript own-key enumeration order. -/

/-- Association-list member read, generic in the stored type. -/
def assocLookup {α : Type} : List (String × α) → String → Option α
  | [], _ => none
  | (k', v) :: rest, k => if k = k' then some v else assocLookup rest k

/-- Property assignment on a generic object: overwrite in place or append. -/
def assocSet {α : Type} : List (String × α) → String → α → List (String × α)
  | [], k, v => [(k, v)]
  | (k', v') :: rest, k, v =>
    if k = k' then (k, v) :: rest else (k', v') :: assocSet rest k v

/-- In-place update of the value stored at a key, a no-op when absent. -/
def assocUpdate {α : Type} : List (String × α) → String → (α → α) → List (String × α)
  | [], _, _ => []
  | (k', v) :: rest, k, f =>
    if k = k' then (k', f v) :: rest else (k', v) :: assocUpdate rest k f

/-- JavaScript ToPropertyKey via ToString.  Integral numbers print as
decimal integers; the printing of non-integral numbers is an idealized
stand-in (the theorems below only exercise string-valued keys). -/
def jsToPropKey : Option Value → String
  | none => "undefined"
  | some .null => "null"
  | some (.bool true) => "true"
  | some (.bool false) => "false"
  | some (.str s) => s
  | some (.num q) =>
    if q.den = 1 then toString q.num
    else toString q.num ++ "/" ++ toString q.den

/-- Object.values: values of the array-index keys in ascending numeric
order, then the remaining values in insertion order. -/
def jsObjValuesOrdered {α : Type} (l : List (String × α)) : List α :=
  (stableSortAscBy (fun p => keyNatVal p.1) (l.filter (fun p => isArrayIndexKey p.1)) ++
    l.filter (fun p => !(isArrayIndexKey p.1))).map Prod.snd

/-- The own property names of Object.prototype.  Assigning through these
keys on a plain object hits inherited properties, which this plain
association-list model does not capture; the reshape theorems therefore
exclude them by hypothesis. -/
def jsObjectProtoKeys : List String :=
  ["constructor", "hasOwnProperty", "isPrototypeOf", "propertyIsEnumerable",
   "toLocaleString", "toString", "valueOf", "__proto__",
   "__defineGetter__", "__defineSetter__", "__lookupGetter__", "__lookupSetter__"]

/-- One iteration of the longToWide loop: ensure an inner record exists
for the id key (the truthiness test !result[idValue] is key presence, as
the stored values are always objects and hence truthy), then write the
value field under the key named by the variable field, later rows
overwriting earlier ones. -/
def l2wStep (id varField valField : String) (acc : List (String × Record))
    (row : Record) : List (String × Record) :=
  let idValue := jsToPropKey (lookupR row id)
  let acc' := if (assocLookup acc idValue).isSome then acc
              else acc ++ [(idValue, ([] : Record))]
  assocUpdate acc' idValue (fun inner =>
    assocSet inner (jsToPropKey (lookupR row varField)) (lookupR row valField))

/-- longToWide: accumulate one inner record per distinct id key, then
Object.values in key order.  The source parameter names id, variable,
value appear here as id, varField, valField. -/
def longToWide (data : List Record) (id varField valField : String) : List Record :=
  jsObjValuesOrdered (data.foldl (l2wStep id varField valField) [])

/-- wideToLong: for each record, one long record per value column with the
literal fields id, variable, value; the object literal is built by
successive property writes so that colliding names overwrite in order. -/
def wideToLong (data : List Record) (idColumn : String) (valueColumns : List String) :
    List Record :=
  data.foldl (fun result row =>
    let idValue := lookupR row idColumn
    result ++ valueColumns.map (fun column =>
      assocSet (assocSet (assocSet ([] : Record) idColumn idValue)
        "variable" (some (.str column))) "value" (lookupR row column))) []

/-! Binning (d3.bin with an explicit domain and a tick-count threshold),
modelled from the d3-array version 3 sources. -/

/-- Fuelled floor base-10 logarithm core. -/
def natLog10Go : ℕ → ℕ → ℕ
  | 0, _ => 0
  | fuel + 1, n => if n < 10 then 0 else 1 + natLog10Go fuel (n / 10)

/-- Floor base-10 logarithm of a positive natural number (0 for 0). -/
def natLog10 (n : ℕ) : ℕ := natLog10Go n n

/-- Ceiling base-10 logarithm: the least m with c ≤ 10 ^ m, for c ≥ 1. -/
def ceilLog10Nat (c : ℕ) : ℕ :=
  if c ≤ 1 then 0 else natLog10 (c - 1) + 1

/-- Math.floor(Math.log10 q) for positive rationals, exact (the
floating-point log10 of the source is idealized away). -/
def floorLog10 (q : ℚ) : ℤ :=
  if 1 ≤ q then (natLog10 (⌊q⌋).toNat : ℤ)
  else -(ceilLog10Nat (⌈1 / q⌉).toNat : ℤ)

/-- The 1-2-5-10 factor of d3.ticks.  The source compares the error
against sqrt 50, sqrt 10 and sqrt 2; for a positive error this is the
comparison of its square against 50, 10 and 2, which is exact here. -/
def tickFactor (error2 : ℚ) : ℚ :=
  if 50 ≤ error2 then 10 else if 10 ≤ error2 then 5 else if 2 ≤ error2 then 2 else 1

/-- Math.round: floor of the argument plus one half. -/
def jround (q : ℚ) : ℤ := ⌊q + 1 / 2⌋

/-- The tick increment chosen by d3.ticks: a power of ten scaled by the
1-2-5-10 factor.  The negative-power branch of the source stores a
negated reciprocal increment purely for floating-point accuracy; in
exact arithmetic both branches produce the ticks i * inc modelled here. -/
def tickInc (start stop : ℚ) (count : ℕ) : ℚ :=
  let step := (stop - start) / (count : ℚ)
  let power := floorLog10 step
  let error := step / pow10 power
  pow10 power * tickFactor (error * error)

/-- The first tick index: the rounded quotient, bumped up when its tick
would fall below the start of the range. -/
def adjustLow (start inc : ℚ) : ℤ :=
  let i1 := jround (start / inc)
  if (i1 : ℚ) * inc < start then i1 + 1 else i1

/-- The last tick index: the rounded quotient, bumped down when its tick
would fall above the end of the range. -/
def adjustHigh (stop inc : ℚ) : ℤ :=
  let i2 := jround (stop / inc)
  if stop < (i2 : ℚ) * inc then i2 - 1 else i2

/-- The tick specification of d3.ticks: index range and increment. -/
def tickSpecCore (start stop : ℚ) (count : ℕ) : ℤ × ℤ × ℚ :=
  (adjustLow start (tickInc start stop count),
   adjustHigh stop (tickInc start stop count),
   tickInc start stop count)

/-- tickSpec with its single possible retry: when the range yields no tick
and 0.5 <= count < 2 (count = 1 for a natural count), the source retries
once with twice the count, which cannot retrigger. -/
def tickSpec (start stop : ℚ) (count : ℕ) : ℤ × ℤ × ℚ :=
  let r := tickSpecCore start stop count
  if r.2.1 < r.1 ∧ 1 ≤ count ∧ count < 2 then tickSpecCore start stop (2 * count)
  else r

/-- d3.ticks: nice round values covering [start, stop]. -/
def d3ticks (start stop : ℚ) (count : ℕ) : List ℚ :=
  if count = 0 then []
  else if start = stop then [start]
  else if stop < start then
    let s := tickSpec stop start count
    if s.2.1 < s.1 then []
    else (List.range (s.2.1 - s.1 + 1).toNat).map
      (fun k : ℕ => ((s.2.1 - (k : ℤ) : ℤ) : ℚ) * s.2.2)
  else
    let s := tickSpec start stop count
    if s.2.1 < s.1 then []
    else (List.range (s.2.1 - s.1 + 1).toNat).map
      (fun k : ℕ => ((s.1 + (k : ℤ) : ℤ) : ℚ) * s.2.2)

/-- d3.extent on a nonempty list of numbers: least and greatest value.
The empty case is unreachable from the binning theorems below. -/
def extentQ (l : List ℚ) : ℚ × ℚ :=
  match l with
  | [] => (0, 0)
  | h :: t => (t.foldl min h, t.foldl max h)

/-- One bin of createBins. -/
structure Bin where
  binStart : ℚ
  binEnd : ℚ
  count : ℕ
  percentage : ℚ
deriving DecidableEq

/-- Is the value a number (the shape the binning claims restrict to). -/
def isNumV : Option Value → Bool
  | some (.num _) => true
  | _ => false

/-- The numeric view of a field taken by createBins.  d3.extent and
d3.bin do not coerce, so this model covers datasets whose field values
are numbers; the behaviour on mixed-type values (JavaScript relational
comparison across types) is outside the modelled scope and outside the
claims. -/
def numericValues (data : List Record) (field : String) : List ℚ :=
  (data.map (fun d => lookupR d field)).filterMap (fun v =>
    match v with
    | some (.num q) => some q
    | _ => none)

/-- The post-processed threshold list of d3.bin: ticks for the domain,
the final tick popped when it reaches the domain upper bound, then the
trimming loops that drop thresholds at or below the lower bound and
above the upper bound. -/
def binThresholds (x0 x1 : ℚ) (binCount : ℕ) : List ℚ :=
  let tz0 := d3ticks x0 x1 binCount
  let tz1 := if x1 ≤ tz0.getLastD (x1 - 1) then tz0.dropLast else tz0
  let tz2 := tz1.dropWhile (fun t => decide (t ≤ x0))
  (tz2.reverse.dropWhile (fun t => decide (x1 < t))).reverse

/-- The bins d3.bin builds for a nonempty numeric value list: one bin per
threshold gap, boundaries taken from the domain ends and the thresholds,
and every in-domain value assigned to the bin found by bisection
(bisectRight on a sorted threshold list is the count of thresholds at
most the value).  The source binStart of bin.x0 || 0 is the identity on
the defined numeric bounds produced here. -/
def binsFor (values : List ℚ) (total binCount : ℕ) : List Bin :=
  let x0 := (extentQ values).1
  let x1 := (extentQ values).2
  let tz := binThresholds x0 x1 binCount
  let m := tz.length
  (List.range (m + 1)).map (fun i =>
    let s := if i = 0 then x0 else tz.getD (i - 1) 0
    let e := if i = m then x1 else tz.getD i 0
    let c := (values.filter (fun q =>
      decide (x0 ≤ q) && decide (q ≤ x1) &&
        decide (tz.countP (fun t => decide (t ≤ q)) = i))).length
    ⟨s, e, c, ((c : ℕ) : ℚ) / ((total : ℕ) : ℚ) * 100⟩)

/-- createBins: extent of the field as the explicit domain, then the
d3.bin pipeline of binsFor.  On an empty value list the d3 pipeline has
no defined extent and is outside the modelled scope. -/
def createBins (data : List Record) (field : String) (binCount : ℕ) : List Bin :=
  match numericValues data field with
  | [] => []
  | v :: vs => binsFor (v :: vs) data.length binCount

/-! Basic lemmas about records. -/

theorem lookupR_setField_self (r : Record) (k : String) (v : Option Value) :
    lookupR (setField r k v) k = v := by
  induction r with
  | nil => simp [setField, lookupR]
  | cons p t ih =>
    obtain ⟨k', v'⟩ := p
    by_cases h : k = k'
    · simp [setField, h, lookupR]
    · simp [setField, h, lookupR, ih]

theorem lookupR_setField_ne (r : Record) (k k' : String) (v : Option Value)
    (h : k' ≠ k) : lookupR (setField r k v) k' = lookupR r k' := by
  induction r with
  | nil => simp [setField, lookupR, h]
  | cons p t ih =>
    obtain ⟨k0, v0⟩ := p
    by_cases hk : k = k0
    · subst hk
      simp [setField, lookupR, h, ih]
    · simp [setField, hk, lookupR]
      by_cases hk' : k' = k0 <;> simp [hk', ih]

/-! Lemmas about JavaScript number arithmetic. -/

theorem jsAdd_nan_right (a : JsNum) : jsAdd a .nan = .nan := by
  cases a <;> rfl

theorem jsDiv_nan_right (a : JsNum) : jsDiv a .nan = .nan := by
  cases a <;> rfl

theorem jsMul_comm (a b : JsNum) : jsMul a b = jsMul b a := by
  cases a <;> cases b <;> simp [jsMul, mul_comm]

/-- Numbers that are finite or NaN, never an infinity: every value the
correlation loop manipulates has this shape. -/
def finOrNan : JsNum → Bool
  | .inf => false
  | .negInf => false
  | _ => true

theorem toNumber_cases (v : Option Value) :
    (∃ q, toNumber v = .fin q) ∨ toNumber v = .nan := by
  match v with
  | none => exact Or.inr rfl
  | some .null => exact Or.inl ⟨0, rfl⟩
  | some (.bool true) => exact Or.inl ⟨1, rfl⟩
  | some (.bool false) => exact Or.inl ⟨0, rfl⟩
  | some (.num q) => exact Or.inl ⟨q, rfl⟩
  | some (.str s) =>
    cases h : strToNumQ s with
    | none => exact Or.inr (by simp [toNumber, h])
    | some q => exact Or.inl ⟨q, by simp [toNumber, h]⟩

theorem jsSub_toNumber_cases (v : Option Value) (m : ℚ) :
    (∃ r, jsSub (toNumber v) (.fin m) = .fin r) ∨
      jsSub (toNumber v) (.fin m) = .nan := by
  rcases toNumber_cases v with ⟨q, hq⟩ | hq
  · exact Or.inl ⟨q - m, by simp [hq, jsSub, jsNeg, jsAdd, sub_eq_add_neg]⟩
  · exact Or.inr (by simp [hq, jsSub, jsNeg, jsAdd])

theorem qSqrt_zero : qSqrt 0 = 0 := by
  norm_num [qSqrt, natSqrtDown]

/-! The zero-variance and empty-dataset behaviour of the correlation
cell, plus its symmetry. -/

theorem corrStep_swap (xf yf : String) (xm ym : ℚ) (acc : JsNum × JsNum × JsNum)
    (row : Record) :
    corrStep yf xf ym xm (acc.1, acc.2.2, acc.2.1) row =
      ((corrStep xf yf xm ym acc row).1,
       (corrStep xf yf xm ym acc row).2.2,
       (corrStep xf yf xm ym acc row).2.1) := by
  simp [corrStep, jsMul_comm]

theorem corrAccum_swap (data : List Record) (xf yf : String) (xm ym : ℚ) :
    corrAccum data yf xf ym xm =
      ((corrAccum data xf yf xm ym).1,
       (corrAccum data xf yf xm ym).2.2,
       (corrAccum data xf yf xm ym).2.1) := by
  suffices h : ∀ acc : JsNum × JsNum × JsNum,
      List.foldl (corrStep yf xf ym xm) (acc.1, acc.2.2, acc.2.1) data =
        ((List.foldl (corrStep xf yf xm ym) acc data).1,
         (List.foldl (corrStep xf yf xm ym) acc data).2.2,
         (List.foldl (corrStep xf yf xm ym) acc data).2.1) by
    simpa [corrAccum] using h (.fin 0, .fin 0, .fin 0)
  intro acc
  induction data generalizing acc with
  | nil => simp
  | cons row rest ih =>
    simp only [List.foldl_cons]
    rw [corrStep_swap]
    exact ih (corrStep xf yf xm ym acc row)

theorem corrCell_comm (data : List Record) (xf yf : String) :
    corrCell data xf yf = corrCell data yf xf := by
  simp only [corrCell]
  rw [corrAccum_swap data yf xf]
  simp [jsMul_comm]

theorem getD_map_range {α : Type} (f : ℕ → α) {n i : ℕ} (hi : i < n) (d : α) :
    ((List.range n).map f).getD i d = f i := by
  have h : i < ((List.range n).map f).length := by simpa using hi
  rw [List.getD_eq_getElem _ _ h]
  simp

/-- Row and column access into the correlation matrix. -/
theorem corrMatrix_entry (data : List Record) (vars : List String) {i j : ℕ}
    (hi : i < vars.length) (hj : j < vars.length) :
    entryAt (calculateCorrelationMatrix data vars) i j =
      if i = j then .fin 1 else corrCell data (vars.getD i "") (vars.getD j "") := by
  simp only [entryAt, calculateCorrelationMatrix]
  rw [getD_map_range _ hi, getD_map_range _ hj]

theorem corrCell_empty (xf yf : String) : corrCell [] xf yf = .nan := by
  simp [corrCell, corrAccum, jsMean, validNums, jsMul, jsSqrt, qSqrt_zero, jsDiv]

/-- C3: the diagonal of calculateCorrelationMatrix is 1 and the matrix is
symmetric, the two off-diagonal twins being numerically identical even
though each is computed independently. -/
theorem C3_correlation_symmetric_unit_diagonal (data : List Record)
    (vars : List String) (i j : ℕ) (hi : i < vars.length) (hj : j < vars.length) :
    entryAt (calculateCorrelationMatrix data vars) i i = .fin 1 ∧
    entryAt (calculateCorrelationMatrix data vars) i j =
      entryAt (calculateCorrelationMatrix data vars) j i := by
  constructor
  · rw [corrMatrix_entry data vars hi hi]
    simp
  · rw [corrMatrix_entry data vars hi hj, corrMatrix_entry data vars hj hi]
    by_cases h : i = j
    · simp [h]
    · simp [h, Ne.symm h, corrCell_comm]

/-- Witness for C3 on a concrete two-column dataset. -/
theorem C3_correlation_symmetric_unit_diagonal_witness :
    0 < (["x", "y"] : List String).length ∧ 1 < (["x", "y"] : List String).length ∧
    (entryAt (calculateCorrelationMatrix
        [[("x", some (.num 1)), ("y", some (.num 2))],
         [("x", some (.num 2)), ("y", some (.num 3))]] ["x", "y"]) 0 0 = .fin 1 ∧
     entryAt (calculateCorrelationMatrix
        [[("x", some (.num 1)), ("y", some (.num 2))],
         [("x", some (.num 2)), ("y", some (.num 3))]] ["x", "y"]) 0 1 =
       entryAt (calculateCorrelationMatrix
        [[("x", some (.num 1)), ("y", some (.num 2))],
         [("x", some (.num 2)), ("y", some (.num 3))]] ["x", "y"]) 1 0) :=
  ⟨by decide, by decide,
    C3_correlation_symmetric_unit_diagonal
      [[("x", some (.num 1)), ("y", some (.num 2))],
       [("x", some (.num 2)), ("y", some (.num 3))]] ["x", "y"] 0 1
      (by decide) (by decide)⟩

/-- C10: on the empty dataset the correlation matrix is returned normally
as a square matrix with unit diagonal and NaN everywhere off-diagonal. -/
theorem C10_empty_dataset_matrix (vars : List String) (_h2 : 2 ≤ vars.length)
    (_hnd : vars.Nodup) :
    (calculateCorrelationMatrix [] vars).matrix.length = vars.length ∧
    (∀ row ∈ (calculateCorrelationMatrix [] vars).matrix, row.length = vars.length) ∧
    (∀ i, i < vars.length → entryAt (calculateCorrelationMatrix [] vars) i i = .fin 1) ∧
    (∀ i, i < vars.length → ∀ j, j < vars.length → i ≠ j →
      entryAt (calculateCorrelationMatrix [] vars) i j = .nan) := by
  refine ⟨by simp [calculateCorrelationMatrix], ?_, ?_, ?_⟩
  · intro row hrow
    simp only [calculateCorrelationMatrix, List.mem_map] at hrow
    obtain ⟨i, _, hrow⟩ := hrow
    simp [← hrow]
  · intro i hi
    rw [corrMatrix_entry _ _ hi hi]
    simp
  · intro i hi j hj hij
    rw [corrMatrix_entry _ _ hi hj]
    simp [hij, corrCell_empty]

/-- Witness for C10 with two fields. -/
theorem C10_empty_dataset_matrix_witness :
    2 ≤ (["x", "y"] : List String).length ∧ (["x", "y"] : List String).Nodup ∧
    ((calculateCorrelationMatrix [] ["x", "y"]).matrix.length = 2 ∧
     (∀ row ∈ (calculateCorrelationMatrix [] ["x", "y"]).matrix, row.length = 2) ∧
     (∀ i, i < 2 → entryAt (calculateCorrelationMatrix [] ["x", "y"]) i i = .fin 1) ∧
     (∀ i, i < 2 → ∀ j, j < 2 → i ≠ j →
       entryAt (calculateCorrelationMatrix [] ["x", "y"]) i j = .nan)) :=
  ⟨by decide, by decide,
    C10_empty_dataset_matrix ["x", "y"] (by decide) (by decide)⟩

/-! C5: zero-variance columns give a NaN correlation cell. -/

theorem jsMean_constant_valid (l : List (Option Value)) (v : Option Value)
    (hconst : ∀ x ∈ l, x = v) (q : ℚ) (hq : d3Valid v = some q) :
    validNums l = List.replicate l.length q := by
  induction l with
  | nil => simp [validNums]
  | cons h t ih =>
    have hh : h = v := hconst h (by simp)
    have ht : ∀ x ∈ t, x = v := fun x hx => hconst x (by simp [hx])
    simp [validNums, List.filterMap_cons, hh, hq, List.replicate_succ]
    simpa [validNums] using ih ht

theorem jsMean_constant_invalid (l : List (Option Value)) (v : Option Value)
    (hconst : ∀ x ∈ l, x = v) (hq : d3Valid v = none) :
    validNums l = [] := by
  induction l with
  | nil => simp [validNums]
  | cons h t ih =>
    have hh : h = v := hconst h (by simp)
    have ht : ∀ x ∈ t, x = v := fun x hx => hconst x (by simp [hx])
    simp [validNums, List.filterMap_cons, hh, hq]
    simpa [validNums] using ih ht

theorem jsMean_of_constant (l : List (Option Value)) (v : Option Value)
    (hne : l ≠ []) (hconst : ∀ x ∈ l, x = v) (q : ℚ) (hq : d3Valid v = some q) :
    jsMean l = some q := by
  have hv := jsMean_constant_valid l v hconst q hq
  have hlen : l.length ≠ 0 := by simpa using hne
  simp only [jsMean, hv]
  rw [if_neg (by simpa using hlen)]
  congr 1
  rw [List.sum_replicate, List.length_replicate, nsmul_eq_mul]
  field_simp

/-- For a non-null scalar, d3Valid keeps exactly the finite coercions. -/
theorem d3Valid_eq (w : Value) (hw : w ≠ .null) :
    d3Valid (some w) =
      (match toNumber (some w) with
       | .fin q => some q
       | _ => none) := by
  rcases w with p | s | b | _
  · rfl
  · rfl
  · rfl
  · exact absurd rfl hw

/-- With a constant column the per-row x deviation is the same for every
row and is either exactly zero or NaN. -/
theorem constant_column_diff (data : List Record) (xf : String) (hne : data ≠ [])
    (hconst : ∀ r ∈ data, lookupR r xf = lookupR (data.headD []) xf) :
    (∀ r ∈ data,
      jsSub (toNumber (lookupR r xf))
        (.fin ((jsMean (data.map (fun d => lookupR d xf))).getD 0)) = .fin 0) ∨
    (∀ r ∈ data,
      jsSub (toNumber (lookupR r xf))
        (.fin ((jsMean (data.map (fun d => lookupR d xf))).getD 0)) = .nan) := by
  set v := lookupR (data.headD []) xf with hv
  have hmap : ∀ x ∈ data.map (fun d => lookupR d xf), x = v := by
    intro x hx
    obtain ⟨r, hr, rfl⟩ := List.mem_map.mp hx
    exact hconst r hr
  have hmapne : data.map (fun d => lookupR d xf) ≠ [] := by
    simpa using hne
  rcases htn : toNumber v with _ | _ | _ | q
  · -- toNumber v = NaN
    refine Or.inr (fun r hr => ?_)
    rw [hconst r hr, htn]
    rfl
  · -- toNumber never returns an infinity
    rcases toNumber_cases v with ⟨q, hq⟩ | hq <;> simp [htn] at hq
  · rcases toNumber_cases v with ⟨q, hq⟩ | hq <;> simp [htn] at hq
  · -- toNumber v = fin q: the mean is q itself (or the column is all null)
    refine Or.inl (fun r hr => ?_)
    rw [hconst r hr, htn]
    rcases hd : d3Valid v with _ | p
    · -- invalid for aggregation: v is null or a NaN-coercing string, but
      -- toNumber v is finite, so v is null and q = 0; the mean is the
      -- empty-mean fallback 0
      have hq0 : q = 0 := by
        rcases v with _ | w
        · simp [toNumber] at htn
        · by_cases hw : w = .null
          · subst hw
            simpa [toNumber] using htn.symm
          · rw [d3Valid_eq w hw, htn] at hd
            simp at hd
      have := jsMean_constant_invalid (data.map (fun d => lookupR d xf)) v hmap hd
      simp [jsMean, this, hq0, jsSub, jsNeg, jsAdd]
    · -- valid: the coerced value is p and p = q
      have hpq : p = q := by
        rcases v with _ | w
        · simp [d3Valid] at hd
        · by_cases hw : w = .null
          · subst hw
            simp [d3Valid] at hd
          · rw [d3Valid_eq w hw, htn] at hd
            simpa using hd.symm
      have := jsMean_of_constant (data.map (fun d => lookupR d xf)) v hmapne hmap p hd
      simp [this, hpq, jsSub, jsNeg, jsAdd]

theorem corrFold_xzero (xf yf : String) (xm ym : ℚ) :
    ∀ rest : List Record,
      (∀ row ∈ rest, jsSub (toNumber (lookupR row xf)) (.fin xm) = .fin 0) →
      ∀ a c : JsNum, (a = .fin 0 ∨ a = .nan) →
        ((List.foldl (corrStep xf yf xm ym) (a, .fin 0, c) rest).2.1 = .fin 0 ∧
         ((List.foldl (corrStep xf yf xm ym) (a, .fin 0, c) rest).1 = .fin 0 ∨
          (List.foldl (corrStep xf yf xm ym) (a, .fin 0, c) rest).1 = .nan)) := by
  intro rest
  induction rest with
  | nil => intro _ a c ha; exact ⟨rfl, ha⟩
  | cons row t ih =>
    intro hx a c ha
    have hrow := hx row (by simp)
    have ht : ∀ row ∈ t, jsSub (toNumber (lookupR row xf)) (.fin xm) = .fin 0 :=
      fun r hr => hx r (by simp [hr])
    simp only [List.foldl_cons]
    have hstep : corrStep xf yf xm ym (a, .fin 0, c) row =
        (jsAdd a (jsMul (.fin 0) (jsSub (toNumber (lookupR row yf)) (.fin ym))),
         .fin 0,
         jsAdd c (jsMul (jsSub (toNumber (lookupR row yf)) (.fin ym))
           (jsSub (toNumber (lookupR row yf)) (.fin ym)))) := by
      simp [corrStep, hrow, jsMul, jsAdd]
    rw [hstep]
    apply ih ht
    rcases jsSub_toNumber_cases (lookupR row yf) ym with ⟨r, hr⟩ | hr
    · rcases ha with ha | ha <;> simp [hr, ha, jsMul, jsAdd]
    · rcases ha with ha | ha <;> simp [hr, ha, jsMul, jsAdd, jsAdd_nan_right]

theorem corrFold_xnan (xf yf : String) (xm ym : ℚ) :
    ∀ rest : List Record, ∀ a d c : JsNum,
      (d = .nan ∨ (rest ≠ [] ∧ ∀ row ∈ rest,
        jsSub (toNumber (lookupR row xf)) (.fin xm) = .nan)) →
      (List.foldl (corrStep xf yf xm ym) (a, d, c) rest).2.1 = .nan := by
  intro rest
  induction rest with
  | nil =>
    intro a d c h
    rcases h with h | ⟨hne, _⟩
    · simpa using h
    · exact absurd rfl hne
  | cons row t ih =>
    intro a d c h
    simp only [List.foldl_cons]
    have hd' : (corrStep xf yf xm ym (a, d, c) row).2.1 = .nan := by
      rcases h with h | ⟨_, hall⟩
      · simp [corrStep, h, jsAdd]
      · have := hall row (by simp)
        simp [corrStep, this, jsMul, jsAdd_nan_right]
    have := ih (corrStep xf yf xm ym (a, d, c) row).1
      (corrStep xf yf xm ym (a, d, c) row).2.1
      (corrStep xf yf xm ym (a, d, c) row).2.2 (Or.inl hd')
    simpa using this

theorem finOrNan_jsAdd (a b : JsNum) (ha : finOrNan a = true) (hb : finOrNan b = true) :
    finOrNan (jsAdd a b) = true := by
  cases a <;> cases b <;> simp_all [finOrNan, jsAdd]

theorem finOrNan_jsMul (a b : JsNum) (ha : finOrNan a = true) (hb : finOrNan b = true) :
    finOrNan (jsMul a b) = true := by
  cases a <;> cases b <;> simp_all [finOrNan, jsMul]

theorem finOrNan_jsSub_toNumber (v : Option Value) (m : ℚ) :
    finOrNan (jsSub (toNumber v) (.fin m)) = true := by
  rcases jsSub_toNumber_cases v m with ⟨r, hr⟩ | hr <;> simp [hr, finOrNan]

theorem corrAccum_denY_finOrNan (data : List Record) (xf yf : String) (xm ym : ℚ) :
    finOrNan (corrAccum data xf yf xm ym).2.2 = true := by
  suffices h : ∀ acc : JsNum × JsNum × JsNum, finOrNan acc.2.2 = true →
      finOrNan (List.foldl (corrStep xf yf xm ym) acc data).2.2 = true by
    exact h (.fin 0, .fin 0, .fin 0) rfl
  induction data with
  | nil => intro acc h; simpa using h
  | cons row t ih =>
    intro acc h
    simp only [List.foldl_cons]
    refine ih _ ?_
    simp only [corrStep]
    exact finOrNan_jsAdd _ _ h
      (finOrNan_jsMul _ _ (finOrNan_jsSub_toNumber _ _) (finOrNan_jsSub_toNumber _ _))

theorem corrCell_constLeft (data : List Record) (xf yf : String) (hne : data ≠ [])
    (hconst : ∀ r ∈ data, lookupR r xf = lookupR (data.headD []) xf) :
    corrCell data xf yf = .nan := by
  simp only [corrCell]
  rcases constant_column_diff data xf hne hconst with hz | hn
  · -- the x deviations are all exactly zero
    have hfold := corrFold_xzero xf yf
      ((jsMean (data.map (fun d => lookupR d xf))).getD 0)
      ((jsMean (data.map (fun d => lookupR d yf))).getD 0)
      data hz (.fin 0) (.fin 0) (Or.inl rfl)
    rcases hfold with ⟨hdx, hnum⟩
    have hdy := corrAccum_denY_finOrNan data xf yf
      ((jsMean (data.map (fun d => lookupR d xf))).getD 0)
      ((jsMean (data.map (fun d => lookupR d yf))).getD 0)
    simp only [corrAccum] at hdx hnum hdy ⊢
    set F := List.foldl
      (corrStep xf yf ((jsMean (data.map (fun d => lookupR d xf))).getD 0)
        ((jsMean (data.map (fun d => lookupR d yf))).getD 0))
      (JsNum.fin 0, JsNum.fin 0, JsNum.fin 0) data with hF
    rcases hdy2 : F.2.2 with _ | _ | _ | r
    · rcases hnum with h1 | h1 <;>
        simp [hdx, hdy2, h1, jsMul, jsSqrt, jsDiv]
    · simp [hdy2, finOrNan] at hdy
    · simp [hdy2, finOrNan] at hdy
    · rcases hnum with h1 | h1 <;>
        simp [hdx, hdy2, h1, jsMul, jsSqrt, qSqrt_zero, jsDiv]
  · -- the x deviations are all NaN
    have hdx := corrFold_xnan xf yf
      ((jsMean (data.map (fun d => lookupR d xf))).getD 0)
      ((jsMean (data.map (fun d => lookupR d yf))).getD 0)
      data (.fin 0) (.fin 0) (.fin 0) (Or.inr ⟨hne, hn⟩)
    simp only [corrAccum] at hdx ⊢
    simp [hdx, jsMul, jsSqrt, jsDiv_nan_right]

/-- C5: with a zero-variance column (all values of field i, or all values
of field j, coincide) the off-diagonal correlation entry is NaN; the
function is total, so the call returns normally, and no special case
guards the division. -/
theorem C5_zero_variance_nan (data : List Record) (vars : List String) (i j : ℕ)
    (hne : data ≠ []) (hi : i < vars.length) (hj : j < vars.length) (hij : i ≠ j)
    (hconst :
      (∀ r ∈ data, lookupR r (vars.getD i "") = lookupR (data.headD []) (vars.getD i "")) ∨
      (∀ r ∈ data, lookupR r (vars.getD j "") = lookupR (data.headD []) (vars.getD j ""))) :
    entryAt (calculateCorrelationMatrix data vars) i j = .nan := by
  rw [corrMatrix_entry data vars hi hj]
  rw [if_neg hij]
  rcases hconst with h | h
  · exact corrCell_constLeft data _ _ hne h
  · rw [corrCell_comm]
    exact corrCell_constLeft data _ _ hne h

/-- Witness for C5: a two-record dataset with a constant x column. -/
theorem C5_zero_variance_nan_witness :
    ([[("x", some (.num 1)), ("y", some (.num 2))],
      [("x", some (.num 1)), ("y", some (.num 5))]] : List Record) ≠ [] ∧
    (0 : ℕ) ≠ 1 ∧
    entryAt (calculateCorrelationMatrix
      [[("x", some (.num 1)), ("y", some (.num 2))],
       [("x", some (.num 1)), ("y", some (.num 5))]] ["x", "y"]) 0 1 = .nan :=
  ⟨by decide, by decide,
    C5_zero_variance_nan
      [[("x", some (.num 1)), ("y", some (.num 2))],
       [("x", some (.num 1)), ("y", some (.num 5))]] ["x", "y"] 0 1
      (by decide) (by decide) (by decide) (by decide)
      (Or.inl (by decide))⟩

/-! C6: empty-input fallback of the aggregation functions. -/

/-- C6: on an empty dataset, or when the field has no values that coerce
to numbers, calculateMean, calculateMedian and calculateStandardDeviation
all return 0 instead of failing. -/
theorem C6_empty_input_zero (data : List Record) (field : String)
    (h : data = [] ∨ validNums (data.map (fun d => lookupR d field)) = []) :
    calculateMean data field = 0 ∧ calculateMedian data field = 0 ∧
      calculateStandardDeviation data field = 0 := by
  have hv : validNums (data.map (fun d => lookupR d field)) = [] := by
    rcases h with h | h
    · simp [h, validNums]
    · exact h
  refine ⟨?_, ?_, ?_⟩
  · simp [calculateMean, jsMean, hv]
  · simp [calculateMedian, jsMedian, hv, sortQ]
  · simp [calculateStandardDeviation, jsDeviation, jsVariance, hv]

/-- Witness for C6: a field with only null and non-numeric string values. -/
theorem C6_empty_input_zero_witness :
    (([[("x", some .null)], [("x", some (.str "abc"))], [("y", some (.num 3))]] :
        List Record) = [] ∨
      validNums (([[("x", some .null)], [("x", some (.str "abc"))],
        [("y", some (.num 3))]] : List Record).map (fun d => lookupR d "x")) = []) ∧
    (calculateMean [[("x", some .null)], [("x", some (.str "abc"))],
        [("y", some (.num 3))]] "x" = 0 ∧
     calculateMedian [[("x", some .null)], [("x", some (.str "abc"))],
        [("y", some (.num 3))]] "x" = 0 ∧
     calculateStandardDeviation [[("x", some .null)], [("x", some (.str "abc"))],
        [("y", some (.num 3))]] "x" = 0) :=
  ⟨by decide,
    C6_empty_input_zero
      [[("x", some .null)], [("x", some (.str "abc"))], [("y", some (.num 3))]] "x"
      (by decide)⟩

/-! C2: behaviour on an unrecognized imputation method.  The spec calls
for a synchronous rejection; the code has no such check (the TypeScript
union type is erased at runtime), leaves the fill value undefined, and
assigns undefined to every missing slot, returning normally. -/

/-- C2: evaluating the code on an unrecognized method shows it returns
normally, with the missing value overwritten by undefined (hence still
missing), instead of failing fast. -/
theorem C2_unrecognized_method_returns :
    imputeMissingValues [[("x", some .null)]] "x" "banana" =
      [[("x", (none : Option Value))]] ∧
    imputeFill [[("x", some .null)]] "x" "banana" = none := by
  constructor <;> decide

/-! C4 and C9: imputation fills the field and touches nothing else. -/

theorem lookupR_eq_none_of_not_mem (r : Record) (k : String)
    (h : k ∉ r.map Prod.fst) : lookupR r k = none := by
  induction r with
  | nil => rfl
  | cons p t ih =>
    obtain ⟨k0, v0⟩ := p
    simp only [List.map_cons, List.mem_cons] at h
    push_neg at h
    simp [lookupR, h.1, ih h.2]

theorem lookupR_cloneRecord (r : Record) (hnd : (r.map Prod.fst).Nodup)
    (k : String) : lookupR (cloneRecord r) k = lookupR r k := by
  induction r with
  | nil => rfl
  | cons p t ih =>
    obtain ⟨k0, v0⟩ := p
    simp only [List.map_cons, List.nodup_cons] at hnd
    rcases v0 with _ | w
    · -- explicitly-undefined property is dropped by the JSON round trip
      by_cases hk : k = k0
      · subst hk
        have hkeys : k ∉ (cloneRecord t).map Prod.fst := by
          intro hmem
          exact hnd.1 (((List.filter_sublist t).map Prod.fst).mem hmem)
        have h0 := lookupR_eq_none_of_not_mem _ _ hkeys
        simp only [cloneRecord] at h0 ⊢
        simpa [lookupR] using h0
      · simpa [cloneRecord, lookupR, hk] using ih hnd.2
    · by_cases hk : k = k0
      · subst hk
        simp [cloneRecord, lookupR]
      · simpa [cloneRecord, lookupR, hk] using ih hnd.2

theorem insertByKeyDesc_perm {α : Type} (key : α → ℕ) (x : α) (l : List α) :
    (insertByKeyDesc key x l).Perm (x :: l) := by
  induction l with
  | nil => exact List.Perm.refl _
  | cons y ys ih =>
    simp only [insertByKeyDesc]
    by_cases h : key y < key x
    · simp [h]
    · rw [if_neg h]
      exact (ih.cons y).trans (List.Perm.swap x y ys)

theorem stableSortDescBy_perm {α : Type} (key : α → ℕ) (l : List α) :
    (stableSortDescBy key l).Perm l := by
  suffices h : ∀ acc : List α,
      (l.foldl (fun acc x => insertByKeyDesc key x acc) acc).Perm (acc ++ l) by
    simpa [stableSortDescBy] using h []
  induction l with
  | nil => intro acc; simp
  | cons x xs ih =>
    intro acc
    refine (ih (insertByKeyDesc key x acc)).trans ?_
    refine (((insertByKeyDesc_perm key x acc).append_right xs).trans ?_)
    exact List.perm_middle.symm

theorem jsFalsy_false_not_missing (v : Option Value) (h : jsFalsy v = false) :
    isMissingV v = false := by
  rcases v with _ | w
  · simp [jsFalsy] at h
  · rcases w with p | s | b | _
    · simp [isMissingV]
    · simp only [jsFalsy] at h
      simpa [isMissingV] using h
    · simp [isMissingV]
    · simp [jsFalsy] at h

theorem imputeFill_not_missing (data : List Record) (field method : String)
    (hm : method ∈ ["mean", "median", "mode"]) :
    isMissingV (imputeFill data field method) = false := by
  simp only [List.mem_cons, List.not_mem_nil, or_false] at hm
  rcases hm with h | h | h
  · subst h; simp [imputeFill, isMissingV]
  · subst h; simp [imputeFill, isMissingV]
  · subst h
    simp only [imputeFill]
    norm_num
    cases hh : (calculateFrequencies
        (data.filter (fun d => !isMissingV (lookupR d field))) field).head? with
    | none => simp [isMissingV]
    | some e =>
      by_cases hf : jsFalsy e.value
      · simp [hf, isMissingV]
      · simp only [hf, Bool.false_eq_true, if_false]
        exact jsFalsy_false_not_missing _ (by simpa using hf)

theorem impute_result_not_missing (data : List Record) (field method : String)
    (hm : method ∈ ["mean", "median", "mode"]) :
    ∀ r ∈ imputeMissingValues data field method,
      isMissingV (lookupR r field) = false := by
  intro r hr
  simp only [imputeMissingValues, List.mem_map] at hr
  obtain ⟨d, ⟨d0, _, rfl⟩, rfl⟩ := hr
  by_cases hmiss : isMissingV (lookupR (cloneRecord d0) field)
  · simp only [hmiss, if_true]
    rw [lookupR_setField_self]
    exact imputeFill_not_missing data field method hm
  · rw [if_neg hmiss]
    cases hb : isMissingV (lookupR (cloneRecord d0) field)
    · rfl
    · exact absurd hb hmiss

/-- C4: for methods mean, median and mode, imputation keeps the record
count and afterwards countMissingValues reports 0 missing values for the
imputed field (every report entry for that field has count 0).  The
source operates on a JSON deep copy; in this pure embedding the input
dataset is unchanged by construction. -/
theorem C4_impute_fills_field (data : List Record) (field method : String)
    (hm : method ∈ ["mean", "median", "mode"]) :
    (imputeMissingValues data field method).length = data.length ∧
    ∀ e ∈ countMissingValues (imputeMissingValues data field method),
      e.varName = field → e.count = 0 := by
  constructor
  · simp [imputeMissingValues]
  · intro e he hef
    have hall := impute_result_not_missing data field method hm
    cases hres : imputeMissingValues data field method with
    | nil => simp [hres, countMissingValues] at he
    | cons first rest =>
      rw [hres] at he
      simp only [countMissingValues] at he
      have he' := (stableSortDescBy_perm
        (fun e : MissingReport => e.count) _).mem_iff.mp he
      obtain ⟨v, _, rfl⟩ := List.mem_map.mp he'
      simp at hef
      subst hef
      have hnil : ((first :: rest).filter
          (fun d => isMissingV (lookupR d v))).length = 0 := by
        rw [List.length_eq_zero]
        rw [List.filter_eq_nil_iff]
        intro a ha
        rw [← hres] at ha
        simp [hall a ha]
      simpa using hnil

/-- Witness for C4: a dataset with one missing and one present value. -/
theorem C4_impute_fills_field_witness :
    "mean" ∈ ["mean", "median", "mode"] ∧
    ((imputeMissingValues [[("x", some .null)], [("x", some (.num 2))]] "x" "mean").length
        = ([[("x", some .null)], [("x", some (.num 2))]] : List Record).length ∧
     ∀ e ∈ countMissingValues
        (imputeMissingValues [[("x", some .null)], [("x", some (.num 2))]] "x" "mean"),
       e.varName = "x" → e.count = 0) :=
  ⟨by decide,
    C4_impute_fills_field [[("x", some .null)], [("x", some (.num 2))]] "x" "mean"
      (by decide)⟩

/-- C9: imputation changes nothing but the missing values of the imputed
field: every other field of every record, and every non-missing value of
the imputed field, is unchanged (record values here are JSON scalars by
construction of the Value type). -/
theorem C9_impute_frame (data : List Record) (field method : String)
    (_hm : method ∈ ["mean", "median", "mode"])
    (hwf : ∀ r ∈ data, (r.map Prod.fst).Nodup) :
    (imputeMissingValues data field method).length = data.length ∧
    ∀ i, i < data.length →
      (∀ k, k ≠ field →
        lookupR ((imputeMissingValues data field method).getD i []) k =
          lookupR (data.getD i []) k) ∧
      (isMissingV (lookupR (data.getD i []) field) = false →
        lookupR ((imputeMissingValues data field method).getD i []) field =
          lookupR (data.getD i []) field) := by
  have hlen : (imputeMissingValues data field method).length = data.length := by
    simp [imputeMissingValues]
  refine ⟨hlen, ?_⟩
  intro i hi
  have hi' : i < (imputeMissingValues data field method).length := by
    rw [hlen]; exact hi
  have hget : (imputeMissingValues data field method).getD i [] =
      (fun d =>
        if isMissingV (lookupR (cloneRecord d) field) then
          setField (cloneRecord d) field (imputeFill data field method)
        else cloneRecord d) (data.getD i []) := by
    simp only [imputeMissingValues, List.map_map] at hi' ⊢
    rw [List.getD_eq_getElem _ _ hi', List.getD_eq_getElem _ _ hi]
    simp
  have hmem : data.getD i [] ∈ data := by
    rw [List.getD_eq_getElem _ _ hi]
    exact List.getElem_mem hi
  have hnd := hwf _ hmem
  have hclone := lookupR_cloneRecord (data.getD i []) hnd
  constructor
  · intro k hk
    rw [hget]
    by_cases hmiss : isMissingV (lookupR (cloneRecord (data.getD i [])) field)
    · simp only [hmiss, if_true]
      rw [lookupR_setField_ne _ _ _ _ hk]
      exact hclone k
    · simp only [hmiss, if_false]
      exact hclone k
  · intro hnotmiss
    rw [hget]
    have : isMissingV (lookupR (cloneRecord (data.getD i [])) field) = false := by
      rw [hclone field]; exact hnotmiss
    simp only [this, Bool.false_eq_true, if_false]
    exact hclone field

/-- Witness for C9. -/
theorem C9_impute_frame_witness :
    "mean" ∈ ["mean", "median", "mode"] ∧
    (∀ r ∈ ([[("x", some .null), ("y", some (.num 7))], [("x", some (.num 2))]] :
        List Record), (r.map Prod.fst).Nodup) ∧
    ((imputeMissingValues [[("x", some .null), ("y", some (.num 7))],
        [("x", some (.num 2))]] "x" "mean").length = 2 ∧
     ∀ i, i < ([[("x", some .null), ("y", some (.num 7))], [("x", some (.num 2))]] :
        List Record).length →
      (∀ k, k ≠ "x" →
        lookupR ((imputeMissingValues [[("x", some .null), ("y", some (.num 7))],
          [("x", some (.num 2))]] "x" "mean").getD i []) k =
          lookupR (([[("x", some .null), ("y", some (.num 7))],
            [("x", some (.num 2))]] : List Record).getD i []) k) ∧
      (isMissingV (lookupR (([[("x", some .null), ("y", some (.num 7))],
          [("x", some (.num 2))]] : List Record).getD i []) "x") = false →
        lookupR ((imputeMissingValues [[("x", some .null), ("y", some (.num 7))],
          [("x", some (.num 2))]] "x" "mean").getD i []) "x" =
          lookupR (([[("x", some .null), ("y", some (.num 7))],
            [("x", some (.num 2))]] : List Record).getD i []) "x")) :=
  ⟨by decide, by decide,
    C9_impute_frame [[("x", some .null), ("y", some (.num 7))], [("x", some (.num 2))]]
      "x" "mean" (by decide) (by decide)⟩

/-! C7: shape of the frequency table. -/

theorem bumpCount_snd_sum {α : Type} [DecidableEq α] (acc : List (α × ℕ)) (k : α) :
    ((bumpCount acc k).map Prod.snd).sum = (acc.map Prod.snd).sum + 1 := by
  induction acc with
  | nil => simp [bumpCount]
  | cons p t ih =>
    obtain ⟨k', c⟩ := p
    by_cases h : k = k'
    · simp [bumpCount, h]
      ring
    · simp [bumpCount, h, ih]
      ring

theorem rollupCounts_sum {α : Type} [DecidableEq α] (l : List α) :
    ((rollupCounts l).map Prod.snd).sum = l.length := by
  suffices h : ∀ acc : List (α × ℕ),
      ((l.foldl bumpCount acc).map Prod.snd).sum = (acc.map Prod.snd).sum + l.length by
    simpa [rollupCounts] using h []
  induction l with
  | nil => intro acc; simp
  | cons x xs ih =>
    intro acc
    simp only [List.foldl_cons, List.length_cons]
    rw [ih (bumpCount acc x), bumpCount_snd_sum]
    ring

theorem bumpCount_keys {α : Type} [DecidableEq α] (acc : List (α × ℕ)) (k : α) :
    (bumpCount acc k).map Prod.fst =
      if k ∈ acc.map Prod.fst then acc.map Prod.fst else acc.map Prod.fst ++ [k] := by
  induction acc with
  | nil => simp [bumpCount]
  | cons p t ih =>
    obtain ⟨k', c⟩ := p
    by_cases h : k = k'
    · simp [bumpCount, h]
    · simp only [bumpCount, if_neg h, List.map_cons, List.mem_cons]
      rw [ih]
      by_cases hm : k ∈ t.map Prod.fst <;> simp [hm, h]

theorem rollupCounts_keys {α : Type} [DecidableEq α] (l : List α) :
    (rollupCounts l).map Prod.fst = firstSeen l := by
  suffices h : ∀ acc : List (α × ℕ),
      (l.foldl bumpCount acc).map Prod.fst =
        l.foldl (fun a x => if x ∈ a then a else a ++ [x]) (acc.map Prod.fst) by
    simpa [rollupCounts, firstSeen] using h []
  induction l with
  | nil => intro acc; rfl
  | cons x xs ih =>
    intro acc
    simp only [List.foldl_cons]
    rw [ih (bumpCount acc x), bumpCount_keys]

theorem firstSeen_nodup {α : Type} [DecidableEq α] (l : List α) :
    (firstSeen l).Nodup := by
  suffices h : ∀ acc : List α, acc.Nodup →
      (l.foldl (fun a x => if x ∈ a then a else a ++ [x]) acc).Nodup by
    exact h [] (by simp)
  induction l with
  | nil => intro acc ha; simpa using ha
  | cons x xs ih =>
    intro acc ha
    simp only [List.foldl_cons]
    refine ih _ ?_
    by_cases hm : x ∈ acc
    · simpa [hm] using ha
    · simp [hm, List.nodup_append, ha]

theorem mem_firstSeen {α : Type} [DecidableEq α] (l : List α) (x : α) :
    x ∈ firstSeen l ↔ x ∈ l := by
  suffices h : ∀ acc : List α,
      (x ∈ l.foldl (fun a y => if y ∈ a then a else a ++ [y]) acc ↔ x ∈ acc ∨ x ∈ l) by
    simpa [firstSeen] using h []
  induction l with
  | nil => intro acc; simp
  | cons y ys ih =>
    intro acc
    simp only [List.foldl_cons]
    rw [ih]
    by_cases hm : y ∈ acc
    · simp only [if_pos hm]
      constructor
      · rintro (h | h)
        · exact Or.inl h
        · exact Or.inr (List.mem_cons_of_mem _ h)
      · rintro (h | h)
        · exact Or.inl h
        · rcases List.mem_cons.mp h with rfl | h
          · exact Or.inl hm
          · exact Or.inr h
    · simp only [if_neg hm, List.mem_append, List.mem_singleton, List.mem_cons]
      tauto

theorem insertByKeyDesc_sorted {α : Type} (key : α → ℕ) (x : α) (l : List α)
    (hl : l.Pairwise (fun a b => key b ≤ key a)) :
    (insertByKeyDesc key x l).Pairwise (fun a b => key b ≤ key a) := by
  induction l with
  | nil => simp [insertByKeyDesc]
  | cons y ys ih =>
    rcases List.pairwise_cons.mp hl with ⟨hy, hys⟩
    simp only [insertByKeyDesc]
    by_cases h : key y < key x
    · rw [if_pos h]
      refine List.pairwise_cons.mpr ⟨?_, hl⟩
      intro z hz
      rcases List.mem_cons.mp hz with rfl | hz
      · exact le_of_lt h
      · exact (hy z hz).trans (le_of_lt h)
    · rw [if_neg h]
      refine List.pairwise_cons.mpr ⟨?_, ih hys⟩
      intro z hz
      rcases List.mem_cons.mp ((insertByKeyDesc_perm key x ys).mem_iff.mp hz) with rfl | hz'
      · exact le_of_not_lt h
      · exact hy z hz'

theorem stableSortDescBy_sorted {α : Type} (key : α → ℕ) (l : List α) :
    (stableSortDescBy key l).Pairwise (fun a b => key b ≤ key a) := by
  suffices h : ∀ acc : List α, acc.Pairwise (fun a b => key b ≤ key a) →
      (l.foldl (fun acc x => insertByKeyDesc key x acc) acc).Pairwise
        (fun a b => key b ≤ key a) by
    exact h [] (by simp)
  induction l with
  | nil => intro acc ha; simpa using ha
  | cons x xs ih =>
    intro acc ha
    simp only [List.foldl_cons]
    exact ih _ (insertByKeyDesc_sorted key x acc ha)

theorem insertByKeyDesc_filter {α : Type} (key : α → ℕ) (c : ℕ) (x : α) (l : List α)
    (hl : l.Pairwise (fun a b => key b ≤ key a)) :
    (insertByKeyDesc key x l).filter (fun a => key a = c) =
      if key x = c then (l.filter (fun a => key a = c)) ++ [x]
      else l.filter (fun a => key a = c) := by
  induction l with
  | nil => by_cases h : key x = c <;> simp [insertByKeyDesc, h]
  | cons y ys ih =>
    rcases List.pairwise_cons.mp hl with ⟨hy, hys⟩
    simp only [insertByKeyDesc]
    by_cases h : key y < key x
    · rw [if_pos h]
      by_cases hx : key x = c
      · have hnone : (y :: ys).filter (fun a => key a = c) = [] := by
          rw [List.filter_eq_nil_iff]
          intro a ha
          have hle : key a ≤ key y := by
            rcases List.mem_cons.mp ha with rfl | ha
            · exact le_refl _
            · exact hy a ha
          have hlt : key a < c := hx ▸ lt_of_le_of_lt hle h
          simp [Nat.ne_of_lt hlt]
        rw [if_pos hx, List.filter_cons_of_pos (by simp [hx]), hnone]
        simp
      · rw [if_neg hx, List.filter_cons_of_neg (by simp [hx])]
    · rw [if_neg h]
      simp only [List.filter_cons, ih hys]
      by_cases hx : key x = c <;> by_cases hy' : key y = c <;> simp [hx, hy']

theorem stableSortDescBy_filter {α : Type} (key : α → ℕ) (l : List α) (c : ℕ) :
    (stableSortDescBy key l).filter (fun a => key a = c) =
      l.filter (fun a => key a = c) := by
  suffices h : ∀ acc : List α, acc.Pairwise (fun a b => key b ≤ key a) →
      (l.foldl (fun acc x => insertByKeyDesc key x acc) acc).filter (fun a => key a = c) =
        acc.filter (fun a => key a = c) ++ l.filter (fun a => key a = c) by
    simpa [stableSortDescBy] using h [] (by simp)
  induction l with
  | nil => intro acc _; simp
  | cons x xs ih =>
    intro acc ha
    simp only [List.foldl_cons]
    rw [ih _ (insertByKeyDesc_sorted key x acc ha)]
    rw [insertByKeyDesc_filter key c x acc ha]
    simp only [List.filter_cons]
    by_cases hx : key x = c <;> simp [hx]

theorem sum_map_pct {α : Type} (counts : List (α × ℕ)) (T : ℚ) :
    (counts.map (fun p => ((p.2 : ℕ) : ℚ) / T * 100)).sum =
      (((counts.map Prod.snd).sum : ℕ) : ℚ) / T * 100 := by
  induction counts with
  | nil => simp
  | cons p t ih =>
    simp only [List.map_cons, List.sum_cons, ih]
    push_cast
    ring

/-- Counterexample to C7 as stated: on the empty dataset the frequency
table is empty and the percentages sum to 0, not 100. -/
theorem C7_frequencies_counterexample :
    ((calculateFrequencies ([] : List Record) "c").map (fun e => e.percentage)).sum
      ≠ 100 := by
  decide

/-- C7 amended: for every non-empty dataset, calculateFrequencies has one
entry per distinct value of the field (distinct entry values, covering
exactly the values occurring), the counts sum to the dataset length, the
percentages sum to exactly 100, entries are sorted by descending count,
and entries with equal counts keep the first-encounter order of their
values (a sublist of the first-seen value sequence). -/
theorem C7_frequencies_amended (data : List Record) (field : String)
    (hne : data ≠ []) :
    ((calculateFrequencies data field).map (fun e => e.count)).sum = data.length ∧
    ((calculateFrequencies data field).map (fun e => e.value)).Nodup ∧
    (∀ v, v ∈ (calculateFrequencies data field).map (fun e => e.value) ↔
      v ∈ data.map (fun d => lookupR d field)) ∧
    (calculateFrequencies data field).Pairwise (fun a b => b.count ≤ a.count) ∧
    (∀ c, List.Sublist
        (((calculateFrequencies data field).filter (fun e => e.count = c)).map
          (fun e => e.value))
        (firstSeen (data.map (fun d => lookupR d field)))) ∧
    ((calculateFrequencies data field).map (fun e => e.percentage)).sum = 100 := by
  have hF : calculateFrequencies data field =
      stableSortDescBy (fun e => e.count)
        ((rollupCounts (data.map (fun d => lookupR d field))).map
          (fun p => ⟨p.1, p.2,
            ((p.2 : ℕ) : ℚ) / ((data.length : ℕ) : ℚ) * 100⟩)) := rfl
  set vals := data.map (fun d => lookupR d field) with hvals
  set pre := (rollupCounts vals).map
    (fun p => (⟨p.1, p.2, ((p.2 : ℕ) : ℚ) / ((data.length : ℕ) : ℚ) * 100⟩ :
      FrequencyEntry)) with hpre
  have hperm : (calculateFrequencies data field).Perm pre := by
    rw [hF]
    exact stableSortDescBy_perm _ _
  have hprevals : pre.map (fun e => e.value) = firstSeen vals := by
    rw [hpre, List.map_map]
    exact rollupCounts_keys vals
  refine ⟨?_, ?_, ?_, ?_, ?_, ?_⟩
  · -- counts sum to the dataset length
    rw [(hperm.map (fun e => e.count)).sum_eq]
    rw [hpre, List.map_map]
    have : ((fun e : FrequencyEntry => e.count) ∘
        (fun p : Option Value × ℕ => (⟨p.1, p.2,
          ((p.2 : ℕ) : ℚ) / ((data.length : ℕ) : ℚ) * 100⟩ : FrequencyEntry))) =
        Prod.snd := rfl
    rw [this, rollupCounts_sum, hvals, List.length_map]
  · -- one entry per distinct value: no duplicates
    rw [(hperm.map (fun e => e.value)).nodup_iff, hprevals]
    exact firstSeen_nodup vals
  · -- one entry per distinct value: exactly the occurring values
    intro v
    rw [(hperm.map (fun e => e.value)).mem_iff, hprevals, mem_firstSeen]
  · -- sorted by descending count
    rw [hF]
    exact stableSortDescBy_sorted _ _
  · -- ties keep first-encounter order
    intro c
    have hfil : (calculateFrequencies data field).filter (fun e => e.count = c) =
        pre.filter (fun e => e.count = c) := by
      rw [hF]
      exact stableSortDescBy_filter (fun e => e.count) pre c
    rw [hfil, hpre, List.filter_map, List.map_map]
    have h1 : ((fun e : FrequencyEntry => e.value) ∘
        (fun p : Option Value × ℕ => (⟨p.1, p.2,
          ((p.2 : ℕ) : ℚ) / ((data.length : ℕ) : ℚ) * 100⟩ : FrequencyEntry))) =
        Prod.fst := rfl
    rw [h1, ← rollupCounts_keys vals]
    exact (List.filter_sublist _).map Prod.fst
  · -- percentages sum to exactly 100
    rw [(hperm.map (fun e => e.percentage)).sum_eq]
    rw [hpre, List.map_map]
    have h2 : ((fun e : FrequencyEntry => e.percentage) ∘
        (fun p : Option Value × ℕ => (⟨p.1, p.2,
          ((p.2 : ℕ) : ℚ) / ((data.length : ℕ) : ℚ) * 100⟩ : FrequencyEntry))) =
        (fun p : Option Value × ℕ =>
          ((p.2 : ℕ) : ℚ) / ((data.length : ℕ) : ℚ) * 100) := rfl
    rw [h2, sum_map_pct, rollupCounts_sum, hvals, List.length_map]
    have hlen : ((data.length : ℕ) : ℚ) ≠ 0 := by
      simpa using (by simpa using hne : data.length ≠ 0)
    field_simp

/-- Witness for the amended C7 on the spec example dataset. -/
theorem C7_frequencies_amended_witness :
    ([[("c", some (.str "x"))], [("c", some (.str "y"))], [("c", some (.str "x"))]] :
      List Record) ≠ [] ∧
    (((calculateFrequencies [[("c", some (.str "x"))], [("c", some (.str "y"))],
        [("c", some (.str "x"))]] "c").map (fun e => e.count)).sum = 3 ∧
     ((calculateFrequencies [[("c", some (.str "x"))], [("c", some (.str "y"))],
        [("c", some (.str "x"))]] "c").map (fun e => e.value)).Nodup ∧
     (∀ v, v ∈ (calculateFrequencies [[("c", some (.str "x"))], [("c", some (.str "y"))],
        [("c", some (.str "x"))]] "c").map (fun e => e.value) ↔
       v ∈ ([[("c", some (.str "x"))], [("c", some (.str "y"))],
        [("c", some (.str "x"))]] : List Record).map (fun d => lookupR d "c")) ∧
     (calculateFrequencies [[("c", some (.str "x"))], [("c", some (.str "y"))],
        [("c", some (.str "x"))]] "c").Pairwise (fun a b => b.count ≤ a.count) ∧
     (∀ c, List.Sublist
        (((calculateFrequencies [[("c", some (.str "x"))], [("c", some (.str "y"))],
          [("c", some (.str "x"))]] "c").filter (fun e => e.count = c)).map
           (fun e => e.value))
        (firstSeen (([[("c", some (.str "x"))], [("c", some (.str "y"))],
          [("c", some (.str "x"))]] : List Record).map (fun d => lookupR d "c")))) ∧
     ((calculateFrequencies [[("c", some (.str "x"))], [("c", some (.str "y"))],
        [("c", some (.str "x"))]] "c").map (fun e => e.percentage)).sum = 100) :=
  ⟨by decide,
    C7_frequencies_amended
      [[("c", some (.str "x"))], [("c", some (.str "y"))], [("c", some (.str "x"))]]
      "c" (by decide)⟩

/-! C1: the reshape round trip. -/

theorem assocLookup_eq_none {α : Type} (l : List (String × α)) (k : String)
    (h : k ∉ l.map Prod.fst) : assocLookup l k = none := by
  induction l with
  | nil => rfl
  | cons p t ih =>
    obtain ⟨k0, v0⟩ := p
    simp only [List.map_cons, List.mem_cons] at h
    push_neg at h
    simp [assocLookup, h.1, ih h.2]

theorem assocLookup_append_self {α : Type} (l : List (String × α)) (k : String)
    (r : α) (h : k ∉ l.map Prod.fst) : assocLookup (l ++ [(k, r)]) k = some r := by
  induction l with
  | nil => simp [assocLookup]
  | cons p t ih =>
    obtain ⟨k0, v0⟩ := p
    simp only [List.map_cons, List.mem_cons] at h
    push_neg at h
    simp [assocLookup, h.1, ih h.2]

theorem assocSet_fresh {α : Type} (l : List (String × α)) (k : String) (v : α)
    (h : k ∉ l.map Prod.fst) : assocSet l k v = l ++ [(k, v)] := by
  induction l with
  | nil => rfl
  | cons p t ih =>
    obtain ⟨k0, v0⟩ := p
    simp only [List.map_cons, List.mem_cons] at h
    push_neg at h
    simp [assocSet, h.1, ih h.2]

theorem assocUpdate_append {α : Type} (l : List (String × α)) (k : String)
    (r : α) (f : α → α) (h : k ∉ l.map Prod.fst) :
    assocUpdate (l ++ [(k, r)]) k f = l ++ [(k, f r)] := by
  induction l with
  | nil => simp [assocUpdate]
  | cons p t ih =>
    obtain ⟨k0, v0⟩ := p
    simp only [List.map_cons, List.mem_cons] at h
    push_neg at h
    simp [assocUpdate, h.1, ih h.2]

theorem foldl_append_eq_join {α β : Type} (f : α → List β) (data : List α) :
    ∀ acc : List β,
      data.foldl (fun res x => res ++ f x) acc = acc ++ (data.map f).flatten := by
  induction data with
  | nil => intro acc; simp
  | cons x xs ih =>
    intro acc
    simp only [List.foldl_cons, List.map_cons, List.flatten_cons]
    rw [ih (acc ++ f x)]
    simp

theorem wideToLong_eq (data : List Record) (idColumn : String)
    (valueColumns : List String) :
    wideToLong data idColumn valueColumns =
      (data.map (fun row => valueColumns.map (fun column =>
        assocSet (assocSet (assocSet ([] : Record) idColumn (lookupR row idColumn))
          "variable" (some (.str column))) "value" (lookupR row column)))).flatten := by
  simpa [wideToLong] using foldl_append_eq_join
    (fun row => valueColumns.map (fun column =>
      assocSet (assocSet (assocSet ([] : Record) idColumn (lookupR row idColumn))
        "variable" (some (.str column))) "value" (lookupR row column))) data []

theorem longRec_eq (idc : String) (hv : idc ≠ "variable") (hw : idc ≠ "value")
    (idv w : Option Value) (c : String) :
    assocSet (assocSet (assocSet ([] : Record) idc idv) "variable" (some (.str c)))
        "value" w =
      [(idc, idv), ("variable", some (.str c)), ("value", w)] := by
  simp [assocSet, Ne.symm hv, Ne.symm hw]

/-- Lookups into a long record with distinct literal field names. -/
theorem longRec_lookups (idc : String) (hv : idc ≠ "variable") (hw : idc ≠ "value")
    (idv w : Option Value) (c : String) :
    lookupR [(idc, idv), ("variable", some (.str c)), ("value", w)] idc = idv ∧
    lookupR [(idc, idv), ("variable", some (.str c)), ("value", w)] "variable" =
      some (.str c) ∧
    lookupR [(idc, idv), ("variable", some (.str c)), ("value", w)] "value" = w := by
  refine ⟨by simp [lookupR], ?_, ?_⟩
  · simp [lookupR, Ne.symm hv]
  · simp [lookupR, Ne.symm hw]

/-- Processing the tail of one row block of long records: the inner
record for the id key grows by one field per value column. -/
theorem l2w_block (idc : String) (hv : idc ≠ "variable") (hw : idc ≠ "value")
    (s : String) (row : Record) :
    ∀ (cols : List String) (acc : List (String × Record)) (pr : Record),
      s ∉ acc.map Prod.fst →
      (∀ c ∈ cols, c ∉ pr.map Prod.fst) → cols.Nodup →
      List.foldl (l2wStep idc "variable" "value") (acc ++ [(s, pr)])
          (cols.map (fun column =>
            [(idc, some (.str s)), ("variable", some (.str column)),
             ("value", lookupR row column)])) =
        acc ++ [(s, pr ++ cols.map (fun c => (c, lookupR row c)))] := by
  intro cols
  induction cols with
  | nil => intro acc pr hs _ _; simp
  | cons c cs ih =>
    intro acc pr hs hfresh hnd
    simp only [List.map_cons, List.foldl_cons]
    have hstep : l2wStep idc "variable" "value" (acc ++ [(s, pr)])
        [(idc, some (.str s)), ("variable", some (.str c)),
         ("value", lookupR row c)] =
        acc ++ [(s, pr ++ [(c, lookupR row c)])] := by
      obtain ⟨h1, h2, h3⟩ := longRec_lookups idc hv hw (some (.str s)) (lookupR row c) c
      simp only [l2wStep, h1, h2, h3]
      rw [show jsToPropKey (some (.str s)) = s from rfl,
          show jsToPropKey (some (.str c)) = c from rfl]
      rw [assocLookup_append_self acc s pr hs]
      simp only [Option.isSome_some, if_true]
      rw [assocUpdate_append acc s pr _ hs]
      rw [assocSet_fresh pr c _ (hfresh c (by simp))]
    rw [hstep]
    have hfresh' : ∀ c' ∈ cs, c' ∉ (pr ++ [(c, lookupR row c)]).map Prod.fst := by
      intro c' hc'
      simp only [List.map_append, List.mem_append, List.map_cons, List.map_nil,
        List.mem_singleton]
      push_neg
      refine ⟨hfresh c' (by simp [hc']), ?_⟩
      rintro rfl
      exact (List.nodup_cons.mp hnd).1 hc'
    rw [ih acc (pr ++ [(c, lookupR row c)]) hs hfresh' (List.nodup_cons.mp hnd).2]
    simp

/-- Processing one whole row block with a fresh id key: a new inner
record is created and filled with one field per value column. -/
theorem l2w_row (idc : String) (hv : idc ≠ "variable") (hw : idc ≠ "value")
    (s : String) (row : Record) (cols : List String) (hcols : cols ≠ [])
    (hnd : cols.Nodup) (acc : List (String × Record))
    (hs : s ∉ acc.map Prod.fst) :
    List.foldl (l2wStep idc "variable" "value") acc
        (cols.map (fun column =>
          [(idc, some (.str s)), ("variable", some (.str column)),
           ("value", lookupR row column)])) =
      acc ++ [(s, cols.map (fun c => (c, lookupR row c)))] := by
  cases cols with
  | nil => exact absurd rfl hcols
  | cons c cs =>
    simp only [List.map_cons, List.foldl_cons]
    have hstep : l2wStep idc "variable" "value" acc
        [(idc, some (.str s)), ("variable", some (.str c)),
         ("value", lookupR row c)] =
        acc ++ [(s, [(c, lookupR row c)])] := by
      obtain ⟨h1, h2, h3⟩ := longRec_lookups idc hv hw (some (.str s)) (lookupR row c) c
      simp only [l2wStep, h1, h2, h3]
      rw [show jsToPropKey (some (.str s)) = s from rfl,
          show jsToPropKey (some (.str c)) = c from rfl]
      rw [assocLookup_eq_none acc s hs]
      simp only [Option.isSome_none, Bool.false_eq_true, if_false]
      rw [assocUpdate_append acc s [] _ hs]
      rfl
    rw [hstep]
    have hfresh : ∀ c' ∈ cs, c' ∉ ([(c, lookupR row c)] : Record).map Prod.fst := by
      intro c' hc'
      simp only [List.map_cons, List.map_nil, List.mem_singleton]
      rintro rfl
      exact (List.nodup_cons.mp hnd).1 hc'
    rw [l2w_block idc hv hw s row cs acc [(c, lookupR row c)] hs hfresh
      (List.nodup_cons.mp hnd).2]
    simp

/-- The full longToWide accumulation over the long records of distinct,
well-behaved string ids. -/
theorem l2w_loop (idc : String) (hv : idc ≠ "variable") (hw : idc ≠ "value")
    (cols : List String) (hcols : cols ≠ []) (hnd : cols.Nodup) :
    ∀ (rows : List Record) (acc : List (String × Record)),
      (∀ row ∈ rows, ∃ s, lookupR row idc = some (.str s)) →
      (∀ row ∈ rows, jsToPropKey (lookupR row idc) ∉ acc.map Prod.fst) →
      (rows.map (fun row => jsToPropKey (lookupR row idc))).Nodup →
      List.foldl (l2wStep idc "variable" "value") acc
          ((rows.map (fun row => cols.map (fun column =>
            [(idc, lookupR row idc), ("variable", some (.str column)),
             ("value", lookupR row column)]))).flatten) =
        acc ++ rows.map (fun row =>
          (jsToPropKey (lookupR row idc),
           cols.map (fun c => (c, lookupR row c)))) := by
  intro rows
  induction rows with
  | nil => intro acc _ _ _; simp
  | cons row rest ih =>
    intro acc hstr hkeys hnodup
    obtain ⟨s, hs⟩ := hstr row (by simp)
    rw [List.map_cons, List.nodup_cons] at hnodup
    obtain ⟨hnotin, hrest⟩ := hnodup
    simp only [List.map_cons, List.flatten_cons]
    rw [List.foldl_append]
    have hrow := l2w_row idc hv hw s row cols hcols hnd acc
      (by simpa [hs] using hkeys row (by simp))
    rw [hs]
    rw [hrow]
    have hkey_row : jsToPropKey (lookupR row idc) = s := by rw [hs]; rfl
    have hkeys' : ∀ r ∈ rest, jsToPropKey (lookupR r idc) ∉
        (acc ++ [(s, cols.map (fun c => (c, lookupR row c)))]).map Prod.fst := by
      intro r hr
      simp only [List.map_append, List.mem_append, List.map_cons, List.map_nil,
        List.mem_singleton]
      push_neg
      refine ⟨hkeys r (by simp [hr]), ?_⟩
      intro hcontra
      refine hnotin ?_
      rw [hkey_row, ← hcontra]
      exact List.mem_map_of_mem _ hr
    rw [ih _ (fun r hr => hstr r (by simp [hr])) hkeys' hrest]
    simp [hkey_row, jsToPropKey]

theorem jsObjValuesOrdered_no_index {α : Type} (l : List (String × α))
    (h : ∀ p ∈ l, isArrayIndexKey p.1 = false) :
    jsObjValuesOrdered l = l.map Prod.snd := by
  have h1 : l.filter (fun p => isArrayIndexKey p.1) = [] := by
    rw [List.filter_eq_nil_iff]
    intro p hp
    simp [h p hp]
  have h2 : l.filter (fun p => !(isArrayIndexKey p.1)) = l := by
    rw [List.filter_eq_self]
    intro p hp
    simp [h p hp]
  simp [jsObjValuesOrdered, h1, h2, stableSortAscBy]

/-- Id values under which the reshape round trip is well behaved: a
string, not a canonical array index (so the object keeps insertion
order), and not an Object.prototype property name (so the plain-object
model used here matches JavaScript assignment). -/
def goodIdVal : Option Value → Bool
  | some (.str s) => !(isArrayIndexKey s) && !(decide (s ∈ jsObjectProtoKeys))
  | _ => false

theorem goodIdVal_spec (v : Option Value) (h : goodIdVal v = true) :
    ∃ s, v = some (.str s) ∧ isArrayIndexKey s = false ∧ s ∉ jsObjectProtoKeys := by
  rcases v with _ | w
  · simp [goodIdVal] at h
  · rcases w with q | s | b | _
    · simp [goodIdVal] at h
    · have h' : isArrayIndexKey s = false ∧ s ∉ jsObjectProtoKeys := by
        simpa [goodIdVal] using h
      exact ⟨s, rfl, h'.1, h'.2⟩
    · simp [goodIdVal] at h
    · simp [goodIdVal] at h

theorem lookupR_keyedMap (cols : List String) (row : Record) (k : String) :
    lookupR (cols.map (fun c => (c, lookupR row c))) k =
      if k ∈ cols then lookupR row k else none := by
  induction cols with
  | nil => simp [lookupR]
  | cons c cs ih =>
    by_cases hk : k = c
    · subst hk
      simp [lookupR]
    · simp [lookupR, hk, ih]

/-- Counterexample to C1 as stated: the round trip loses the id field
(longToWide never writes the id back onto its output records), so the
original wide dataset is not reconstructed. -/
theorem C1_roundtrip_counterexample :
    longToWide (wideToLong [[("id", some (.str "a")), ("x", some (.num 1))]]
        "id" ["x"]) "id" "variable" "value" ≠
      [[("id", some (.str "a")), ("x", some (.num 1))]] ∧
    lookupR ((longToWide (wideToLong [[("id", some (.str "a")), ("x", some (.num 1))]]
        "id" ["x"]) "id" "variable" "value").getD 0 []) "id" = none := by
  constructor <;> decide

/-- C1 amended: under the conditions of the claim (unique ids, no
duplicate pairs) with ids that are plain strings (not array indices, not
Object.prototype names), at least one value field, no value field named
double-underscore proto, and an id field not named variable or value,
the round trip reconstructs each record in the original order restricted
to the value fields: the id field itself is dropped (and any field
outside valueFields is absent).  The prototype-related hypotheses keep
this plain-object model faithful to JavaScript and are not otherwise
used. -/
theorem C1_roundtrip_amended (data : List Record) (idField : String)
    (valueFields : List String)
    (hv : idField ≠ "variable") (hw : idField ≠ "value")
    (hcols : valueFields ≠ []) (hnd : valueFields.Nodup)
    (_hproto : "__proto__" ∉ valueFields)
    (hgood : ∀ r ∈ data, goodIdVal (lookupR r idField) = true)
    (huniq : (data.map (fun r => jsToPropKey (lookupR r idField))).Nodup) :
    (longToWide (wideToLong data idField valueFields) idField "variable" "value").length
      = data.length ∧
    ∀ i, i < data.length → ∀ k,
      lookupR ((longToWide (wideToLong data idField valueFields)
          idField "variable" "value").getD i []) k =
        if k ∈ valueFields then lookupR (data.getD i []) k else none := by
  have hrt : longToWide (wideToLong data idField valueFields) idField "variable" "value"
      = data.map (fun row => valueFields.map (fun c => (c, lookupR row c))) := by
    rw [wideToLong_eq]
    simp only [longToWide]
    have hlr : ∀ row column,
        assocSet (assocSet (assocSet ([] : Record) idField (lookupR row idField))
          "variable" (some (.str column))) "value" (lookupR row column) =
        [(idField, lookupR row idField), ("variable", some (.str column)),
         ("value", lookupR row column)] := fun row column =>
      longRec_eq idField hv hw _ _ column
    have hmapeq : data.map (fun row => valueFields.map (fun column =>
        assocSet (assocSet (assocSet ([] : Record) idField (lookupR row idField))
          "variable" (some (.str column))) "value" (lookupR row column))) =
        data.map (fun row => valueFields.map (fun column =>
          [(idField, lookupR row idField), ("variable", some (.str column)),
           ("value", lookupR row column)])) := by
      refine List.map_congr_left (fun row _ => ?_)
      exact List.map_congr_left (fun column _ => hlr row column)
    rw [hmapeq]
    rw [l2w_loop idField hv hw valueFields hcols hnd data []
      (fun row hrow => by
        obtain ⟨s, hs, _, _⟩ := goodIdVal_spec _ (hgood row hrow)
        exact ⟨s, hs⟩)
      (fun row _ => by simp)
      huniq]
    rw [List.nil_append]
    rw [jsObjValuesOrdered_no_index]
    · rw [List.map_map]
      rfl
    · intro p hp
      obtain ⟨row, hrow, hpeq⟩ := List.mem_map.mp hp
      obtain ⟨s, hs, hsidx, _⟩ := goodIdVal_spec _ (hgood row hrow)
      rw [← hpeq]
      simpa [hs] using hsidx
  constructor
  · rw [hrt]
    simp
  · intro i hi k
    rw [hrt]
    have hi' : i < (data.map (fun row =>
        valueFields.map (fun c => (c, lookupR row c)))).length := by
      simpa using hi
    rw [List.getD_eq_getElem _ _ hi', List.getD_eq_getElem _ _ hi]
    rw [List.getElem_map]
    exact lookupR_keyedMap valueFields data[i] k

/-- Witness for the amended C1 on a two-record dataset. -/
theorem C1_roundtrip_amended_witness :
    ("id" : String) ≠ "variable" ∧ ("id" : String) ≠ "value" ∧
    (["p", "q"] : List String) ≠ [] ∧ (["p", "q"] : List String).Nodup ∧
    "__proto__" ∉ (["p", "q"] : List String) ∧
    (∀ r ∈ ([[("id", some (.str "a")), ("p", some (.num 1)), ("q", some (.num 2))],
        [("id", some (.str "b")), ("p", some (.num 3)), ("q", some (.num 4))]] :
        List Record), goodIdVal (lookupR r "id") = true) ∧
    ((longToWide (wideToLong [[("id", some (.str "a")), ("p", some (.num 1)),
        ("q", some (.num 2))], [("id", some (.str "b")), ("p", some (.num 3)),
        ("q", some (.num 4))]] "id" ["p", "q"]) "id" "variable" "value").length = 2 ∧
     ∀ i, i < ([[("id", some (.str "a")), ("p", some (.num 1)), ("q", some (.num 2))],
        [("id", some (.str "b")), ("p", some (.num 3)), ("q", some (.num 4))]] :
        List Record).length → ∀ k,
      lookupR ((longToWide (wideToLong [[("id", some (.str "a")), ("p", some (.num 1)),
          ("q", some (.num 2))], [("id", some (.str "b")), ("p", some (.num 3)),
          ("q", some (.num 4))]] "id" ["p", "q"]) "id" "variable" "value").getD i []) k =
        if k ∈ (["p", "q"] : List String) then
          lookupR (([[("id", some (.str "a")), ("p", some (.num 1)),
            ("q", some (.num 2))], [("id", some (.str "b")), ("p", some (.num 3)),
            ("q", some (.num 4))]] : List Record).getD i []) k
        else none) :=
  ⟨by decide, by decide, by decide, by decide, by decide, by decide,
    C1_roundtrip_amended
      [[("id", some (.str "a")), ("p", some (.num 1)), ("q", some (.num 2))],
       [("id", some (.str "b")), ("p", some (.num 3)), ("q", some (.num 4))]]
      "id" ["p", "q"] (by decide) (by decide) (by decide) (by decide) (by decide)
      (by decide) (by decide)⟩

/-! C8: shape of the histogram bins. -/

theorem pow10_pos (z : ℤ) : 0 < pow10 z := by
  unfold pow10
  by_cases h : 0 ≤ z <;> simp [h] <;> positivity

theorem tickFactor_pos (e : ℚ) : 0 < tickFactor e := by
  unfold tickFactor
  split_ifs <;> norm_num

theorem tickInc_pos (start stop : ℚ) (count : ℕ) : 0 < tickInc start stop count := by
  unfold tickInc
  exact mul_pos (pow10_pos _) (tickFactor_pos _)

theorem adjustLow_ge (start inc : ℚ) (hinc : 0 < inc) :
    start ≤ ((adjustLow start inc : ℤ) : ℚ) * inc := by
  unfold adjustLow jround
  set i1 := ⌊start / inc + 1 / 2⌋ with hi1
  by_cases h : (i1 : ℚ) * inc < start
  · rw [if_pos h]
    have h1 : start / inc + 1 / 2 - 1 < (i1 : ℚ) := Int.sub_one_lt_floor _
    have h2 : start / inc < (i1 : ℚ) + 1 := by linarith
    have h3 : start < ((i1 : ℚ) + 1) * inc := (div_lt_iff hinc).mp h2
    push_cast
    linarith
  · rw [if_neg h]
    exact le_of_not_lt h

theorem adjustHigh_le (stop inc : ℚ) (hinc : 0 < inc) :
    ((adjustHigh stop inc : ℤ) : ℚ) * inc ≤ stop := by
  unfold adjustHigh jround
  set i2 := ⌊stop / inc + 1 / 2⌋ with hi2
  by_cases h : stop < (i2 : ℚ) * inc
  · rw [if_pos h]
    have h1 : (i2 : ℚ) ≤ stop / inc + 1 / 2 := Int.floor_le _
    have h2 : (i2 : ℚ) - 1 < stop / inc := by linarith
    have h3 : ((i2 : ℚ) - 1) * inc < stop := by
      have := (lt_div_iff hinc).mp h2
      linarith
    push_cast
    linarith
  · rw [if_neg h]
    exact le_of_not_lt h

theorem tickSpec_cases (start stop : ℚ) (count : ℕ) :
    tickSpec start stop count = tickSpecCore start stop count ∨
    tickSpec start stop count = tickSpecCore start stop (2 * count) := by
  simp only [tickSpec]
  split_ifs
  · exact Or.inr rfl
  · exact Or.inl rfl

theorem tickSpec_props (start stop : ℚ) (count : ℕ) :
    0 < (tickSpec start stop count).2.2 ∧
    start ≤ ((tickSpec start stop count).1 : ℚ) * (tickSpec start stop count).2.2 ∧
    ((tickSpec start stop count).2.1 : ℚ) * (tickSpec start stop count).2.2 ≤ stop := by
  rcases tickSpec_cases start stop count with h | h <;> rw [h] <;>
    exact ⟨tickInc_pos _ _ _,
      adjustLow_ge _ _ (tickInc_pos _ _ _),
      adjustHigh_le _ _ (tickInc_pos _ _ _)⟩

theorem d3ticks_main (start stop : ℚ) (count : ℕ) (hc : count ≠ 0)
    (hlt : start < stop) :
    d3ticks start stop count =
      (if (tickSpec start stop count).2.1 < (tickSpec start stop count).1 then []
       else (List.range ((tickSpec start stop count).2.1 -
          (tickSpec start stop count).1 + 1).toNat).map
         (fun k : ℕ => (((tickSpec start stop count).1 + (k : ℤ) : ℤ) : ℚ) *
           (tickSpec start stop count).2.2)) := by
  unfold d3ticks
  rw [if_neg hc, if_neg (ne_of_lt hlt), if_neg (not_lt.mpr (le_of_lt hlt))]

theorem d3ticks_sorted (start stop : ℚ) (count : ℕ) (h : start ≤ stop) :
    (d3ticks start stop count).Pairwise (· < ·) := by
  by_cases hc : count = 0
  · simp [d3ticks, hc]
  rcases eq_or_lt_of_le h with heq | hlt
  · subst heq
    simp [d3ticks, hc]
  rw [d3ticks_main start stop count hc hlt]
  split_ifs with hi
  · simp
  have hinc := (tickSpec_props start stop count).1
  refine List.Pairwise.map _ ?_ (List.pairwise_lt_range _)
  intro a b hab
  have hab' : (a : ℚ) < (b : ℚ) := by exact_mod_cast hab
  have hcast : (((tickSpec start stop count).1 + (a : ℕ) : ℤ) : ℚ) <
      (((tickSpec start stop count).1 + (b : ℕ) : ℤ) : ℚ) := by
    push_cast
    linarith
  exact mul_lt_mul_of_pos_right hcast hinc

theorem d3ticks_mem_bounds (start stop : ℚ) (count : ℕ) (h : start ≤ stop) :
    ∀ t ∈ d3ticks start stop count, start ≤ t ∧ t ≤ stop := by
  by_cases hc : count = 0
  · simp [d3ticks, hc]
  rcases eq_or_lt_of_le h with heq | hlt
  · subst heq
    intro t ht
    simp [d3ticks, hc] at ht
    simp [ht]
  rw [d3ticks_main start stop count hc hlt]
  split_ifs with hi
  · simp
  intro t ht
  rw [List.mem_map] at ht
  obtain ⟨k, hk, rfl⟩ := ht
  rw [List.mem_range] at hk
  push_neg at hi
  obtain ⟨hinc, hlow, hhigh⟩ := tickSpec_props start stop count
  set i1 := (tickSpec start stop count).1
  set i2 := (tickSpec start stop count).2.1
  set inc := (tickSpec start stop count).2.2
  have hk' : (k : ℤ) ≤ i2 - i1 := by
    have h1 : (k : ℤ) < i2 - i1 + 1 := Int.lt_toNat.mp hk
    omega
  have hcast1 : (i1 : ℚ) ≤ ((i1 + (k : ℤ) : ℤ) : ℚ) := by
    push_cast
    have : (0 : ℚ) ≤ (k : ℚ) := by positivity
    linarith
  have hcast2 : ((i1 + (k : ℤ) : ℤ) : ℚ) ≤ (i2 : ℚ) := by
    push_cast
    have : ((k : ℤ) : ℚ) ≤ ((i2 - i1 : ℤ) : ℚ) := by exact_mod_cast hk'
    push_cast at this
    linarith
  constructor
  · calc start ≤ (i1 : ℚ) * inc := hlow
      _ ≤ ((i1 + (k : ℤ) : ℤ) : ℚ) * inc :=
        mul_le_mul_of_nonneg_right hcast1 (le_of_lt hinc)
  · calc ((i1 + (k : ℤ) : ℤ) : ℚ) * inc ≤ (i2 : ℚ) * inc :=
        mul_le_mul_of_nonneg_right hcast2 (le_of_lt hinc)
      _ ≤ stop := hhigh

theorem sorted_mem_le_getLast (l : List ℚ) (hl : l.Pairwise (· < ·))
    (hne : l ≠ []) : ∀ t ∈ l, t ≤ l.getLast hne := by
  intro t ht
  have hsplit := List.dropLast_append_getLast hne
  rw [← hsplit] at hl ht
  rw [List.pairwise_append] at hl
  rcases List.mem_append.mp ht with h | h
  · exact le_of_lt (hl.2.2 t h _ (by simp))
  · rw [List.mem_singleton] at h
    exact le_of_eq h

theorem sorted_dropLast_lt_getLast (l : List ℚ) (hl : l.Pairwise (· < ·))
    (hne : l ≠ []) : ∀ t ∈ l.dropLast, t < l.getLast hne := by
  intro t ht
  have hsplit := List.dropLast_append_getLast hne
  rw [← hsplit] at hl
  rw [List.pairwise_append] at hl
  exact hl.2.2 t ht _ (by simp)

theorem sorted_dropWhile_gt (l : List ℚ) (x0 : ℚ) (hl : l.Pairwise (· < ·)) :
    ∀ t ∈ l.dropWhile (fun t => decide (t ≤ x0)), x0 < t := by
  induction l with
  | nil => simp
  | cons a rest ih =>
    rcases List.pairwise_cons.mp hl with ⟨ha, hrest⟩
    by_cases h : a ≤ x0
    · rw [List.dropWhile_cons_of_pos (by simpa using h)]
      exact ih hrest
    · rw [List.dropWhile_cons_of_neg (by simpa using h)]
      intro t ht
      rcases List.mem_cons.mp ht with rfl | ht'
      · exact lt_of_not_le h
      · exact lt_trans (lt_of_not_le h) (ha t ht')

theorem dropWhile_eq_self_of_all (l : List ℚ) (p : ℚ → Bool)
    (h : ∀ t ∈ l, p t = false) : l.dropWhile p = l := by
  cases l with
  | nil => rfl
  | cons a t => rw [List.dropWhile_cons_of_neg (by simp [h a (by simp)])]

/-- The post-processed thresholds are strictly sorted and lie strictly
inside the domain. -/
theorem binThresholds_spec (x0 x1 : ℚ) (binCount : ℕ) (h : x0 ≤ x1) :
    (binThresholds x0 x1 binCount).Pairwise (· < ·) ∧
    ∀ t ∈ binThresholds x0 x1 binCount, x0 < t ∧ t < x1 := by
  have hticks_sorted := d3ticks_sorted x0 x1 binCount h
  have hticks_mem := d3ticks_mem_bounds x0 x1 binCount h
  set tz0 := d3ticks x0 x1 binCount with htz0
  set tz1 := if x1 ≤ tz0.getLastD (x1 - 1) then tz0.dropLast else tz0 with htz1
  have htz1_sub : List.Sublist tz1 tz0 := by
    rw [htz1]
    split_ifs
    · exact List.dropLast_sublist tz0
    · exact List.Sublist.refl tz0
  have htz1_sorted : tz1.Pairwise (· < ·) := List.Pairwise.sublist htz1_sub hticks_sorted
  have htz1_lt : ∀ t ∈ tz1, t < x1 := by
    intro t ht
    rw [htz1] at ht
    by_cases hpop : x1 ≤ tz0.getLastD (x1 - 1)
    · rw [if_pos hpop] at ht
      have hne : tz0 ≠ [] := by
        intro hnil
        rw [hnil] at hpop
        simp at hpop
        linarith
      have hlast_le : tz0.getLast hne ≤ x1 :=
        (hticks_mem _ (List.getLast_mem hne)).2
      have hlast_eq : tz0.getLastD (x1 - 1) = tz0.getLast hne := by
        rw [List.getLastD_eq_getLast?]
        rw [List.getLast?_eq_getLast _ hne]
        rfl
      have := sorted_dropLast_lt_getLast tz0 hticks_sorted hne t ht
      rw [hlast_eq] at hpop
      linarith [le_antisymm hlast_le hpop]
    · rw [if_neg hpop] at ht
      push_neg at hpop
      have hne : tz0 ≠ [] := by
        intro hnil
        rw [hnil] at ht
        simp at ht
      have hlast_eq : tz0.getLastD (x1 - 1) = tz0.getLast hne := by
        rw [List.getLastD_eq_getLast?]
        rw [List.getLast?_eq_getLast _ hne]
        rfl
      have hle := sorted_mem_le_getLast tz0 hticks_sorted hne t ht
      rw [hlast_eq] at hpop
      linarith
  set tz2 := tz1.dropWhile (fun t => decide (t ≤ x0)) with htz2
  have htz2_sub : List.Sublist tz2 tz1 := List.dropWhile_sublist _
  have htz2_sorted : tz2.Pairwise (· < ·) := List.Pairwise.sublist htz2_sub htz1_sorted
  have htz2_gt : ∀ t ∈ tz2, x0 < t := sorted_dropWhile_gt tz1 x0 htz1_sorted
  have htz2_lt : ∀ t ∈ tz2, t < x1 := fun t ht => htz1_lt t (htz2_sub.mem ht)
  have hfinal : binThresholds x0 x1 binCount = tz2 := by
    rw [binThresholds]
    rw [← htz0, ← htz1, ← htz2]
    rw [dropWhile_eq_self_of_all tz2.reverse _ (by
      intro t ht
      rw [List.mem_reverse] at ht
      simp [not_lt.mpr (le_of_lt (htz2_lt t ht))])]
    exact List.reverse_reverse tz2
  rw [hfinal]
  exact ⟨htz2_sorted, fun t ht => ⟨htz2_gt t ht, htz2_lt t ht⟩⟩

theorem foldl_min_le (t : List ℚ) : ∀ (h : ℚ), ∀ q ∈ h :: t, t.foldl min h ≤ q := by
  induction t with
  | nil =>
    intro h q hq
    rw [List.mem_singleton] at hq
    simp [hq]
  | cons a t' ih =>
    intro h q hq
    simp only [List.foldl_cons]
    rcases List.mem_cons.mp hq with rfl | hq'
    · exact (ih (min q a) (min q a) (by simp)).trans (min_le_left _ _)
    · rcases List.mem_cons.mp hq' with rfl | hq''
      · exact (ih (min h q) (min h q) (by simp)).trans (min_le_right _ _)
      · exact ih (min h a) q (by simp [hq''])

theorem le_foldl_max (t : List ℚ) : ∀ (h : ℚ), ∀ q ∈ h :: t, q ≤ t.foldl max h := by
  induction t with
  | nil =>
    intro h q hq
    rw [List.mem_singleton] at hq
    simp [hq]
  | cons a t' ih =>
    intro h q hq
    simp only [List.foldl_cons]
    rcases List.mem_cons.mp hq with rfl | hq'
    · exact (le_max_left _ _).trans (ih (max q a) (max q a) (by simp))
    · rcases List.mem_cons.mp hq' with rfl | hq''
      · exact (le_max_right _ _).trans (ih (max h q) (max h q) (by simp))
      · exact ih (max h a) q (by simp [hq''])

theorem extentQ_bounds (l : List ℚ) (hne : l ≠ []) :
    (∀ q ∈ l, (extentQ l).1 ≤ q ∧ q ≤ (extentQ l).2) ∧ (extentQ l).1 ≤ (extentQ l).2 := by
  cases l with
  | nil => exact absurd rfl hne
  | cons h t =>
    have hmin := foldl_min_le t h
    have hmax := le_foldl_max t h
    refine ⟨fun q hq => ⟨hmin q hq, hmax q hq⟩, ?_⟩
    exact (hmin h (by simp)).trans (hmax h (by simp))

theorem numericValues_all (data : List Record) (field : String)
    (hnum : ∀ r ∈ data, isNumV (lookupR r field) = true) :
    (numericValues data field).length = data.length := by
  induction data with
  | nil => rfl
  | cons r rest ih =>
    have hr := hnum r (by simp)
    have hrest : ∀ r' ∈ rest, isNumV (lookupR r' field) = true :=
      fun r' hr' => hnum r' (by simp [hr'])
    rcases hv : lookupR r field with _ | w
    · rw [hv] at hr
      simp [isNumV] at hr
    · rcases w with q | s | b | _ <;> rw [hv] at hr <;> simp [isNumV] at hr
      simp only [numericValues, List.map_cons, List.filterMap_cons, hv]
      simpa [numericValues] using ih hrest

theorem filter_length_lt_succ {α : Type} (l : List α) (g : α → ℕ) (k : ℕ) :
    (l.filter (fun x => decide (g x < k + 1))).length =
      (l.filter (fun x => decide (g x < k))).length +
      (l.filter (fun x => decide (g x = k))).length := by
  induction l with
  | nil => simp
  | cons x xs ih =>
    by_cases h1 : g x < k + 1
    · rcases Nat.lt_succ_iff_lt_or_eq.mp h1 with h2 | h2
      · simp [List.filter_cons, h1, h2, Nat.ne_of_lt h2, ih]
        omega
      · have h3 : ¬ g x < k := by omega
        simp [List.filter_cons, h1, h2, h3, ih]
        omega
    · have h2 : ¬ g x < k := by omega
      have h3 : g x ≠ k := by omega
      simp [List.filter_cons, h1, h2, h3, ih]

theorem bucket_sum {α : Type} (l : List α) (g : α → ℕ) (k : ℕ) :
    ((List.range k).map (fun i => (l.filter (fun x => decide (g x = i))).length)).sum
      = (l.filter (fun x => decide (g x < k))).length := by
  induction k with
  | zero => simp
  | succ k ih =>
    rw [List.range_succ, List.map_append, List.sum_append]
    simp only [List.map_cons, List.map_nil, List.sum_cons, List.sum_nil]
    rw [ih, filter_length_lt_succ]
    omega

theorem binsFor_counts_sum (values : List ℚ) (total binCount : ℕ)
    (hvne : values ≠ []) :
    ((binsFor values total binCount).map (fun b => b.count)).sum = values.length := by
  obtain ⟨hext, hx01⟩ := extentQ_bounds values hvne
  simp only [binsFor]
  rw [List.map_map]
  have hcongr : ∀ i ∈ List.range ((binThresholds (extentQ values).1 (extentQ values).2
      binCount).length + 1),
      ((fun b : Bin => b.count) ∘ (fun i =>
        (⟨if i = 0 then (extentQ values).1
            else (binThresholds (extentQ values).1 (extentQ values).2 binCount).getD (i - 1) 0,
          if i = (binThresholds (extentQ values).1 (extentQ values).2 binCount).length
            then (extentQ values).2
            else (binThresholds (extentQ values).1 (extentQ values).2 binCount).getD i 0,
          (values.filter (fun q => decide ((extentQ values).1 ≤ q) &&
            decide (q ≤ (extentQ values).2) &&
            decide ((binThresholds (extentQ values).1 (extentQ values).2
              binCount).countP (fun t => decide (t ≤ q)) = i))).length,
          (((values.filter (fun q => decide ((extentQ values).1 ≤ q) &&
            decide (q ≤ (extentQ values).2) &&
            decide ((binThresholds (extentQ values).1 (extentQ values).2
              binCount).countP (fun t => decide (t ≤ q)) = i))).length : ℕ) : ℚ) /
            ((total : ℕ) : ℚ) * 100⟩ : Bin))) i =
      (fun i => (values.filter (fun q =>
        decide ((binThresholds (extentQ values).1 (extentQ values).2
          binCount).countP (fun t => decide (t ≤ q)) = i))).length) i := by
    intro i _
    simp only [Function.comp]
    congr 1
    apply List.filter_congr
    intro q hq
    simp [(hext q hq).1, (hext q hq).2]
  rw [List.map_congr_left hcongr]
  rw [bucket_sum]
  rw [List.filter_eq_self.mpr]
  intro q _
  simp only [decide_eq_true_eq]
  exact Nat.lt_succ_of_le (List.countP_le_length _)

theorem binsFor_chain (values : List ℚ) (total binCount : ℕ) :
    List.Chain' (fun a b => a.binEnd = b.binStart) (binsFor values total binCount) := by
  simp only [binsFor]
  rw [List.chain'_iff_get]
  intro i hi
  simp only [List.length_map, List.length_range] at hi
  have hi' : i < (binThresholds (extentQ values).1 (extentQ values).2 binCount).length := by
    omega
  rw [List.get_eq_getElem, List.get_eq_getElem]
  simp only [List.getElem_map, List.getElem_range]
  have h1 : i ≠ (binThresholds (extentQ values).1 (extentQ values).2 binCount).length :=
    Nat.ne_of_lt hi'
  have h2 : i + 1 ≠ 0 := Nat.succ_ne_zero i
  simp [h1, h2]

theorem binsFor_mono (values : List ℚ) (total binCount : ℕ) (hvne : values ≠ []) :
    ∀ b ∈ binsFor values total binCount, b.binStart ≤ b.binEnd := by
  obtain ⟨hext, hx01⟩ := extentQ_bounds values hvne
  obtain ⟨htzsort, htzmem⟩ := binThresholds_spec (extentQ values).1 (extentQ values).2
    binCount hx01
  intro b hb
  simp only [binsFor, List.mem_map, List.mem_range] at hb
  obtain ⟨i, hi, rfl⟩ := hb
  set tz := binThresholds (extentQ values).1 (extentQ values).2 binCount with htzdef
  by_cases h0 : i = 0 <;> by_cases hm : i = tz.length
  · subst h0
    simp only [if_pos rfl, ← hm]
    simpa using hx01
  · subst h0
    have hlen : 0 < tz.length := by omega
    simp only [if_pos rfl, if_neg hm]
    rw [List.getD_eq_getElem _ _ hlen]
    exact le_of_lt (htzmem _ (List.getElem_mem hlen)).1
  · subst hm
    have hlen : tz.length - 1 < tz.length := by omega
    simp only [if_neg h0, if_pos rfl]
    rw [List.getD_eq_getElem _ _ hlen]
    exact le_of_lt (htzmem _ (List.getElem_mem hlen)).2
  · have hilt : i < tz.length := by omega
    have hprev : i - 1 < tz.length := by omega
    simp only [if_neg h0, if_neg hm]
    rw [List.getD_eq_getElem _ _ hprev, List.getD_eq_getElem _ _ hilt]
    rcases List.pairwise_iff_getElem.mp htzsort with hpw
    exact le_of_lt (hpw (i - 1) i hprev hilt (by omega))

theorem binsFor_ne_nil (values : List ℚ) (total binCount : ℕ) :
    binsFor values total binCount ≠ [] := by
  simp only [binsFor]
  intro h
  have := congrArg List.length h
  simp at this

theorem binsFor_head (values : List ℚ) (total binCount : ℕ) :
    ((binsFor values total binCount).headD ⟨0, 0, 0, 0⟩).binStart =
      (extentQ values).1 := by
  simp only [binsFor]
  rw [List.range_succ_eq_map]
  simp

theorem binsFor_last (values : List ℚ) (total binCount : ℕ) :
    ((binsFor values total binCount).getLastD ⟨0, 0, 0, 0⟩).binEnd =
      (extentQ values).2 := by
  simp only [binsFor]
  rw [List.range_succ, List.map_append, List.map_singleton, List.getLastD_concat]
  simp

theorem createBins_eq (data : List Record) (field : String) (binCount : ℕ)
    (h : numericValues data field ≠ []) :
    createBins data field binCount =
      binsFor (numericValues data field) data.length binCount := by
  cases hv : numericValues data field with
  | nil => exact absurd hv h
  | cons a t => simp [createBins, hv]

/-- C8: on a non-empty dataset whose field values are all numbers, the
bin counts of createBins sum to the dataset length, the bins are
contiguous (each binEnd equals the next binStart) and non-degenerate
(binStart at most binEnd, so with half-open intervals they do not
overlap), and they cover the observed extent: the first bin starts at
the minimum and the last bin ends at the maximum of the field. -/
theorem C8_createBins_partition (data : List Record) (field : String)
    (binCount : ℕ) (hne : data ≠ [])
    (hnum : ∀ r ∈ data, isNumV (lookupR r field) = true) :
    ((createBins data field binCount).map (fun b => b.count)).sum = data.length ∧
    List.Chain' (fun a b => a.binEnd = b.binStart) (createBins data field binCount) ∧
    (∀ b ∈ createBins data field binCount, b.binStart ≤ b.binEnd) ∧
    createBins data field binCount ≠ [] ∧
    ((createBins data field binCount).headD ⟨0, 0, 0, 0⟩).binStart =
      (extentQ (numericValues data field)).1 ∧
    ((createBins data field binCount).getLastD ⟨0, 0, 0, 0⟩).binEnd =
      (extentQ (numericValues data field)).2 := by
  have hlen := numericValues_all data field hnum
  have hvne : numericValues data field ≠ [] := by
    intro h0
    have : data.length = 0 := by rw [← hlen, h0]; rfl
    exact hne (List.length_eq_zero.mp this)
  rw [createBins_eq data field binCount hvne]
  refine ⟨?_, binsFor_chain _ _ _, binsFor_mono _ _ _ hvne, binsFor_ne_nil _ _ _,
    binsFor_head _ _ _, binsFor_last _ _ _⟩
  rw [binsFor_counts_sum _ _ _ hvne, hlen]

/-- Witness for C8 on a five-record dataset binned with the default
count of ten. -/
theorem C8_createBins_partition_witness :
    ([[("x", some (.num 0))], [("x", some (.num 5))], [("x", some (.num 10))],
      [("x", some (.num 7))], [("x", some (.num 3))]] : List Record) ≠ [] ∧
    (∀ r ∈ ([[("x", some (.num 0))], [("x", some (.num 5))], [("x", some (.num 10))],
      [("x", some (.num 7))], [("x", some (.num 3))]] : List Record),
      isNumV (lookupR r "x") = true) ∧
    (((createBins [[("x", some (.num 0))], [("x", some (.num 5))],
        [("x", some (.num 10))], [("x", some (.num 7))], [("x", some (.num 3))]]
        "x" 10).map (fun b => b.count)).sum = 5 ∧
     List.Chain' (fun a b => a.binEnd = b.binStart)
       (createBins [[("x", some (.num 0))], [("x", some (.num 5))],
        [("x", some (.num 10))], [("x", some (.num 7))], [("x", some (.num 3))]]
        "x" 10) ∧
     (∀ b ∈ createBins [[("x", some (.num 0))], [("x", some (.num 5))],
        [("x", some (.num 10))], [("x", some (.num 7))], [("x", some (.num 3))]]
        "x" 10, b.binStart ≤ b.binEnd) ∧
     createBins [[("x", some (.num 0))], [("x", some (.num 5))],
        [("x", some (.num 10))], [("x", some (.num 7))], [("x", some (.num 3))]]
        "x" 10 ≠ [] ∧
     ((createBins [[("x", some (.num 0))], [("x", some (.num 5))],
        [("x", some (.num 10))], [("x", some (.num 7))], [("x", some (.num 3))]]
        "x" 10).headD ⟨0, 0, 0, 0⟩).binStart =
       (extentQ (numericValues [[("x", some (.num 0))], [("x", some (.num 5))],
        [("x", some (.num 10))], [("x", some (.num 7))], [("x", some (.num 3))]]
        "x")).1 ∧
     ((createBins [[("x", some (.num 0))], [("x", some (.num 5))],
        [("x", some (.num 10))], [("x", some (.num 7))], [("x", some (.num 3))]]
        "x" 10).getLastD ⟨0, 0, 0, 0⟩).binEnd =
       (extentQ (numericValues [[("x", some (.num 0))], [("x", some (.num 5))],
        [("x", some (.num 10))], [("x", some (.num 7))], [("x", some (.num 3))]]
        "x")).2) :=
  ⟨by decide, by decide,
    C8_createBins_partition
      [[("x", some (.num 0))], [("x", some (.num 5))], [("x", some (.num 10))],
       [("x", some (.num 7))], [("x", some (.num 3))]] "x" 10
      (by decide) (by decide)⟩

end Slice
